import Mathlib

/- A verification development for `src/websdr/mipmap_reader.H` (sdr5).

The C++ code is shallowly embedded.  The `int` arrays of length `LEVELS`
become functions `ℕ → ℕ` (the code never reads an index outside
`[0, LEVELS)`), the mutable `mipmapChunkFinder` is the structure
`FinderState`, and every loop becomes a fold over `List.range'` (keeping the
loop's iteration order) or structural recursion.  On the domains the claims
range over, every quantity handled by the code is nonnegative and far below
`2^31`, so C++ `int` arithmetic is modelled by `ℕ`; the signed 32-bit halves
of the packed 64-bit mipmap words are modelled by `ℤ`.  A C++ `assert`
failure is modelled by an `Option` result being `none`; a
`throw logic_error` is modelled by `Except.error`.  The `double` arithmetic
of `requestView` is modelled by the equivalent exact integer comparison (see
the comment at `scanLevels`), and the `double` value pipeline of
`read`/`readSpectrum` is modelled over `ℚ`. -/

set_option maxHeartbeats 1000000

namespace Sdr5

/-- State of `mipmapChunkFinder` (mipmap_reader.H lines 15–22): per-level
local indices `levelIndex`, the active level `currLevel`, and the absolute
chunk index `currIndex`.  The configuration (`levelSteps`) and the values
computed once by `init` (`levelSizes`, `totalChunkCount`) are never mutated
afterwards and are kept as separate definitions parameterised by the
configuration. -/
@[ext]
structure FinderState where
  levelIndex : ℕ → ℕ
  currLevel : ℕ
  currIndex : ℕ

/-- `mipmapChunkFinder::init` (lines 26–29): `levelSizes[0] = 1` and
`levelSizes[i] = levelSizes[i-1] * levelSteps[i-1] + 1`. -/
def levelSizes (steps : ℕ → ℕ) : ℕ → ℕ
  | 0 => 1
  | i + 1 => levelSizes steps i * steps i + 1

/-- `mipmapChunkFinder::init` (line 30):
`totalChunkCount = levelSizes[LEVELS-1] * levelSteps[LEVELS-1]`. -/
def totalChunkCount (L : ℕ) (steps : ℕ → ℕ) : ℕ :=
  levelSizes steps (L - 1) * steps (L - 1)

/-- `mipmapChunkFinder::init` (lines 24–31) as a whole: it computes
`levelSizes` and `totalChunkCount`.  The C++ function body contains no
assertion or other failure path, so under the convention that a failed
`assert` is modelled by `none`, `init` always returns `some`. -/
def finderInit (L : ℕ) (steps : ℕ → ℕ) : Option ((ℕ → ℕ) × ℕ) :=
  some (levelSizes steps, totalChunkCount L steps)

/-- The first loop of `goToChunk` (lines 39–43): running over the listed
levels, store `tmpIndex % levelSteps[i]` into `levelIndex[i]` and divide
`tmpIndex` by `levelSteps[i]`. -/
def digitLoop (steps : ℕ → ℕ) : List ℕ → ℕ × (ℕ → ℕ) → ℕ × (ℕ → ℕ)
  | [], acc => acc
  | i :: rest, (tmp, f) =>
      digitLoop steps rest (tmp / steps i, Function.update f i (tmp % steps i))

/-- `mipmapChunkFinder::goToChunk` (lines 34–54): extract the mixed-radix
digits of `index` into `levelIndex[level..LEVELS)`, then set `currIndex` to
the accumulated sum `Σ levelIndex[i] * levelSizes[i]` over that range, plus
`levelSteps[level-1] * levelSizes[level-1]` when `level > 0`. -/
def goToChunk (L : ℕ) (steps : ℕ → ℕ) (st : FinderState) (level index : ℕ) :
    FinderState :=
  let f := (digitLoop steps (List.range' level (L - level)) (index, st.levelIndex)).2
  { levelIndex := f
    currLevel := level
    currIndex :=
      (List.range' level (L - level)).foldl (fun acc i => acc + f i * levelSizes steps i) 0
        + (if 0 < level then steps (level - 1) * levelSizes steps (level - 1) else 0) }

/-- The carry loop of `advanceChunk` (lines 61–68): walk the listed levels;
at each one increment `currIndex`; at the first level whose digit is not
maxed out, increment that digit and stop, otherwise zero the digit and keep
carrying. -/
def carryLoop (steps : ℕ → ℕ) : List ℕ → (ℕ → ℕ) × ℕ → (ℕ → ℕ) × ℕ
  | [], fc => fc
  | i :: rest, (f, c) =>
      if f i ≠ steps i - 1 then (Function.update f i (f i + 1), c + 1)
      else carryLoop steps rest (Function.update f i 0, c + 1)

/-- `mipmapChunkFinder::advanceChunk` (lines 57–75): add
`levelSizes[currLevel]` to `currIndex`; if the digit at `currLevel` is maxed
out, run the carry loop over the higher levels and zero the digit, otherwise
just increment the digit; finally subtract `totalChunkCount` once if
`currIndex` reached it. -/
def advanceChunk (L : ℕ) (steps : ℕ → ℕ) (st : FinderState) : FinderState :=
  let level := st.currLevel
  let c0 := st.currIndex + levelSizes steps level
  let fc :=
    if st.levelIndex level = steps level - 1 then
      let fc1 := carryLoop steps (List.range' (level + 1) (L - (level + 1))) (st.levelIndex, c0)
      (Function.update fc1.1 level 0, fc1.2)
    else
      (Function.update st.levelIndex level (st.levelIndex level + 1), c0)
  { levelIndex := fc.1
    currLevel := level
    currIndex :=
      if totalChunkCount L steps ≤ fc.2 then fc.2 - totalChunkCount L steps else fc.2 }

/-! Derived arithmetic notions used to state and prove properties of the
finder.  `stepProd steps a b` is the product of the branch factors on
`[a, b)`; `digitAt steps a v i` is the mixed-radix digit of `v` at position
`i` for the radix sequence starting at level `a` (this is exactly what the
digit loop of `goToChunk` computes); `slotOf` is the physical slot of the
node whose (counter) value at `level` is `v`. -/

def stepProd (steps : ℕ → ℕ) (a b : ℕ) : ℕ := ∏ i ∈ Finset.Ico a b, steps i

def digitAt (steps : ℕ → ℕ) (a v i : ℕ) : ℕ := v / stepProd steps a i % steps i

def levelOffset (steps : ℕ → ℕ) (level : ℕ) : ℕ :=
  if 0 < level then steps (level - 1) * levelSizes steps (level - 1) else 0

def slotOf (steps : ℕ → ℕ) (L level v : ℕ) : ℕ :=
  (∑ i ∈ Finset.Ico level L, digitAt steps level v i * levelSizes steps i)
    + levelOffset steps level

/-- The cursor invariant: `st` is positioned at the node whose counter value
at `level` is `v`; entries of `levelIndex` outside `[level, LEVELS)` hold the
baseline values `g` (the finder never reads or writes them while traversing
at `level`). -/
def Inv (L : ℕ) (steps : ℕ → ℕ) (level : ℕ) (g : ℕ → ℕ) (v : ℕ)
    (st : FinderState) : Prop :=
  st.currLevel = level ∧ v < stepProd steps level L ∧
  (∀ i, level ≤ i → i < L → st.levelIndex i = digitAt steps level v i) ∧
  (∀ i, i < level ∨ L ≤ i → st.levelIndex i = g i) ∧
  st.currIndex = slotOf steps L level v

/-- The concrete two-level configuration `branchFactor = [4, 4]` used by the
spec's worked scenario (only indices 0 and 1 are ever read). -/
def steps44 : ℕ → ℕ := fun _ => 4

/-- A finder state that is all zeros, as after default-initialisation. -/
def st00 : FinderState :=
  { levelIndex := fun _ => 0, currLevel := 0, currIndex := 0 }

/-! The reader (`mipmapReaderView`, `mipmapReader`) of mipmap_reader.H
lines 78–245. -/

/-- `mipmapReaderView` (lines 79–87): `startSamples` inclusive, `endSamples`
exclusive, `resolution` in output points. -/
structure mipmapReaderView where
  startSamples : ℕ
  endSamples : ℕ
  resolution : ℕ
deriving DecidableEq

/-- `mipmapReaderView::compression` (lines 84–86). -/
def mipmapReaderView.compression (v : mipmapReaderView) : ℕ :=
  (v.endSamples - v.startSamples) / v.resolution

/-- The configuration of `mipmapReader<LEVELS, CHANNELS>` (lines 88–106):
the template parameters, the level steps passed to `init`, the stream
`length`, `chunkSize` (default 16), `baseLevelStep` (default 4) and the
`allowOriginal` policy flag.  (`readSpectrum` additionally static-asserts
`CHANNELS == 2`; the theorems about it instantiate `CHANNELS = 2`.) -/
structure ReaderCfg where
  LEVELS : ℕ
  CHANNELS : ℕ
  levelSteps : ℕ → ℕ
  length : ℕ
  chunkSize : ℕ
  baseLevelStep : ℕ
  allowOriginal : Bool

/-- `mipmapReader::init` (lines 111–114): `levelCompression[0] =
baseLevelStep`, `levelCompression[i] = levelCompression[i-1] *
levelSteps[i-1]`. -/
def levelCompression (cfg : ReaderCfg) : ℕ → ℕ
  | 0 => cfg.baseLevelStep
  | i + 1 => levelCompression cfg i * cfg.levelSteps i

/-- The descending level scan of `requestView` (lines 123–127), returning the
largest level index whose compression passes, `none` when the loop falls off
at `i = -1`.  The source compares `levelCompression[i] <= compression` where
`compression` is the `double` quotient span / resolution; for the `int`-sized
operands involved the correctly rounded quotient cannot cross an integer
bound (the distance of the exact rational from the integer is at least
`1/resolution`, far above the rounding error of a division of 32-bit-sized
values), so the comparison is embedded as the exact integer test
`levelCompression[i] * resolution ≤ span`.  For `resolution = 0` the C++
quotient is `+∞` (the span is positive by the entry assertion), every level
passes, and the embedded test `lc * 0 ≤ span` agrees. -/
def scanLevels (cfg : ReaderCfg) (span res : ℕ) : ℕ → Option ℕ
  | 0 => none
  | i + 1 =>
      if levelCompression cfg i * res ≤ span then some i
      else scanLevels cfg span res i

/-- The snapping block of `requestView` (lines 137–145) together with the
final assertion (line 147): snap `startSamples` down and `endSamples` up to
multiples of `roundTo = levelCompression[i] * chunkSize`, recompute the
resolution, and fail (`none`) when the snapped end exceeds the stream
length. -/
def snapToLevel (cfg : ReaderCfg) (requested : mipmapReaderView) (i : ℕ) :
    Option (mipmapReaderView × Option ℕ) :=
  let c := levelCompression cfg i
  let roundTo := c * cfg.chunkSize
  let s := requested.startSamples / roundTo * roundTo
  let e := (requested.endSamples + roundTo - 1) / roundTo * roundTo
  if e ≤ cfg.length then
    some ({ startSamples := s, endSamples := e, resolution := (e - s) / c }, some i)
  else none

/-- `mipmapReader::requestView` (lines 117–151).  A failed `assert` is
modelled by `none`; the second result component is the chosen level (`none`
for the raw path, which the source prints as level `-1`).  On the raw path
the final assertion `returned.endSamples <= length` holds by the entry
assertion, so that branch cannot fail. -/
def requestView (cfg : ReaderCfg) (requested : mipmapReaderView) :
    Option (mipmapReaderView × Option ℕ) :=
  if requested.startSamples < cfg.length
      ∧ requested.startSamples < requested.endSamples
      ∧ requested.endSamples ≤ cfg.length then
    match scanLevels cfg (requested.endSamples - requested.startSamples)
        requested.resolution cfg.LEVELS with
    | some i => snapToLevel cfg requested i
    | none =>
        if cfg.allowOriginal then
          some ({ startSamples := requested.startSamples,
                  endSamples := requested.endSamples,
                  resolution := requested.endSamples - requested.startSamples }, none)
        else snapToLevel cfg requested 0
  else none

/-- Reinterpret the low 32 bits of a value as a signed 32-bit integer
(`int32_t(x & 0xffffffff)`). -/
def toInt32 (n : ℕ) : ℤ :=
  if n % 4294967296 < 2147483648 then (n % 4294967296 : ℤ)
  else (n % 4294967296 : ℤ) - 4294967296

/-- Lower bound of a packed 64-bit mipmap word (line 181 / 229). -/
def lower32 (w : ℕ) : ℤ := toInt32 (w % 4294967296)

/-- Upper bound of a packed 64-bit mipmap word (line 182 / 230). -/
def upper32 (w : ℕ) : ℤ := toInt32 (w / 4294967296 % 4294967296)

/-- `std::clamp(x, lo, hi)` over the exact rationals that model the
`double` computations of the read paths. -/
def clampQ (x lo hi : ℚ) : ℚ :=
  if x < lo then lo else if hi < x then hi else x

/-- C++ `round`: round half away from zero. -/
def cround (q : ℚ) : ℤ :=
  if 0 ≤ q then (q + 1 / 2).floor else -((-q + 1 / 2).floor)

/-- The sequential inner sample loop of the read paths: the writes of
iterations `x = 0, 1, …` land contiguously, so the destination array is the
concatenation of the per-iteration writes. -/
def innerLoop (body : ℕ → List ℤ) : ℕ → List ℤ
  | 0 => []
  | x + 1 => innerLoop body x ++ body x

/-- One `x`-iteration of the inner loop of `read` (lines 179–187): unpack the
packed word, clamp both bounds to `[yLower, yUpper]`, map through the affine
transform and round; the scaled lower and upper bound are written
contiguously. -/
def readChunkBody (mem : ℕ → ℕ) (yLower yUpper A B : ℚ) (offs x : ℕ) : List ℤ :=
  let element := mem (offs + x)
  let lower := clampQ ((lower32 element : ℤ) : ℚ) yLower yUpper
  let upper := clampQ ((upper32 element : ℤ) : ℚ) yLower yUpper
  [cround ((lower - yLower) * A + B), cround ((upper - yLower) * A + B)]

/-- One `x`-iteration of the inner loop of `readSpectrum` (lines 226–239):
unpack the real and imaginary words, replace each upper bound by
`-lower` when that is larger, apply the external `spectrumValue` function,
clamp, rescale, and write the same value to both destination slots. -/
def spectrumChunkBody (mem : ℕ → ℕ) (specVal : ℤ → ℤ → ℚ)
    (yLower yUpper A B : ℚ) (offs x : ℕ) : List ℤ :=
  let elementRe := mem (offs + x * 2)
  let elementIm := mem (offs + x * 2 + 1)
  let lowerRe := lower32 elementRe
  let upperRe0 := upper32 elementRe
  let lowerIm := lower32 elementIm
  let upperIm0 := upper32 elementIm
  let upperRe := if -lowerRe > upperRe0 then -lowerRe else upperRe0
  let upperIm := if -lowerIm > upperIm0 then -lowerIm else upperIm0
  let tmp := clampQ (specVal upperRe upperIm) yLower yUpper
  [cround ((tmp - yLower) * A + B), cround ((tmp - yLower) * A + B)]

/-- The outer `while(true)` chunk loop of the read paths: emit one chunk,
advance the finder, repeat. -/
def chunksGo (adv : FinderState → FinderState) (body : FinderState → List ℤ) :
    FinderState → ℕ → List ℤ
  | _, 0 => []
  | st, n + 1 => body st ++ chunksGo adv body (adv st) n

/-- Number of iterations of the `while(true)` loop: the body runs until
`dstOffs ≥ dstElements`, with `dstOffs` growing by `chunkElements` per
iteration, and always at least once. -/
def loopCount (chunkElements dstElements : ℕ) : ℕ :=
  max 1 ((dstElements + chunkElements - 1) / chunkElements)

/-- The ascending exact-match scan of `read`/`readSpectrum` (lines 165–169 /
207–211): the first level whose `levelCompression` equals the view's
compression factor; `none` when the loop reaches `LEVELS`. -/
def firstMatch (cfg : ReaderCfg) (compression : ℕ) : ℕ → ℕ → Option ℕ
  | _, 0 => none
  | i, n + 1 =>
      if levelCompression cfg i = compression then some i
      else firstMatch cfg compression (i + 1) n

/-- `mipmapReader::read` (lines 156–192).  `fst` is the state of the member
`finder` at call time; `mem` is the shared mipmap buffer (packed 64-bit
words); `valMin`/`valMax` are `numeric_limits<INTTYPE>::min()/max()`; the
`double` pipeline is modelled over `ℚ`.  `throw logic_error` is modelled by
`Except.error`. -/
def read (cfg : ReaderCfg) (fst : FinderState) (mem : ℕ → ℕ)
    (valMin valMax : ℤ) (view : mipmapReaderView) (yLower yUpper : ℚ) :
    Except String (List ℤ) :=
  let A : ℚ := ((valMax : ℚ) - (valMin : ℚ)) / (yUpper - yLower)
  let B : ℚ := (valMin : ℚ)
  let viewSpan := view.endSamples - view.startSamples
  let compression := viewSpan / view.resolution
  match firstMatch cfg compression 0 cfg.LEVELS with
  | none => Except.error "no mipmap level for this resolution"
  | some i =>
      let mipmapStart := view.startSamples / compression
      let st := goToChunk cfg.LEVELS cfg.levelSteps fst i (mipmapStart / cfg.chunkSize)
      let chunkElements := cfg.chunkSize * cfg.CHANNELS
      let dstElements := view.resolution * cfg.CHANNELS
      Except.ok (chunksGo (advanceChunk cfg.LEVELS cfg.levelSteps)
        (fun s => innerLoop
          (readChunkBody mem yLower yUpper A B (s.currIndex * chunkElements))
          chunkElements)
        st (loopCount chunkElements dstElements))

/-- The frequency-centred starting chunk index of `readSpectrum`
(lines 215–218): add half the total chunk count, subtracting the total once
on overflow. -/
def spectrumChunkIndex (totalChunks start : ℕ) : ℕ :=
  if start + totalChunks / 2 ≥ totalChunks then start + totalChunks / 2 - totalChunks
  else start + totalChunks / 2

/-- `mipmapReader::readSpectrum` (lines 197–244).  `specVal` is the external
`spectrumValue` magnitude function (a black box).  The source static-asserts
`CHANNELS == 2`; theorems about `readSpectrum` instantiate `CHANNELS = 2`. -/
def readSpectrum (cfg : ReaderCfg) (specVal : ℤ → ℤ → ℚ) (fst : FinderState)
    (mem : ℕ → ℕ) (valMin valMax : ℤ) (view : mipmapReaderView)
    (yLower yUpper : ℚ) : Except String (List ℤ) :=
  let A : ℚ := ((valMax : ℚ) - (valMin : ℚ)) / (yUpper - yLower)
  let B : ℚ := (valMin : ℚ)
  let viewSpan := view.endSamples - view.startSamples
  let compression := viewSpan / view.resolution
  match firstMatch cfg compression 0 cfg.LEVELS with
  | none => Except.error "no mipmap level for this resolution"
  | some i =>
      let totalChunks := cfg.length / levelCompression cfg i / cfg.chunkSize
      let mipmapStart := view.startSamples / compression
      let chunkIndex := spectrumChunkIndex totalChunks (mipmapStart / cfg.chunkSize)
      let st := goToChunk cfg.LEVELS cfg.levelSteps fst i chunkIndex
      Except.ok (chunksGo (advanceChunk cfg.LEVELS cfg.levelSteps)
        (fun s => innerLoop
          (spectrumChunkBody mem specVal yLower yUpper A B
            (s.currIndex * cfg.CHANNELS * cfg.chunkSize))
          cfg.chunkSize)
        st (loopCount cfg.chunkSize view.resolution))

/-- Whether an extraction call returned normally. -/
def isOkE {α : Type} : Except String α → Bool
  | Except.ok _ => true
  | Except.error _ => false

instance {ε α : Type} [DecidableEq ε] [DecidableEq α] : DecidableEq (Except ε α) :=
  fun x y =>
    match x, y with
    | Except.ok a, Except.ok b =>
        if h : a = b then Decidable.isTrue (congrArg Except.ok h)
        else Decidable.isFalse (fun hh => h (Except.ok.inj hh))
    | Except.error a, Except.error b =>
        if h : a = b then Decidable.isTrue (congrArg Except.error h)
        else Decidable.isFalse (fun hh => h (Except.error.inj hh))
    | Except.ok _, Except.error _ => Decidable.isFalse (fun hh => Except.noConfusion hh)
    | Except.error _, Except.ok _ => Decidable.isFalse (fun hh => Except.noConfusion hh)

/-! Concrete configurations for the worked scenarios and counterexamples. -/

/-- One stored level with `levelCompression = [4]`, `chunkSize = 16`
(`roundTo = 64`), stream length 100 (not a multiple of 64). -/
def cfgC10 : ReaderCfg :=
  { LEVELS := 1, CHANNELS := 1, levelSteps := fun _ => 4, length := 100,
    chunkSize := 16, baseLevelStep := 4, allowOriginal := true }

def reqC10 : mipmapReaderView :=
  { startSamples := 0, endSamples := 100, resolution := 10 }

/-- Like `cfgC10` but with stream length 200 (not a multiple of 64). -/
def cfgC4 : ReaderCfg :=
  { LEVELS := 1, CHANNELS := 1, levelSteps := fun _ => 4, length := 200,
    chunkSize := 16, baseLevelStep := 4, allowOriginal := true }

def reqC4 : mipmapReaderView :=
  { startSamples := 0, endSamples := 200, resolution := 50 }

/-- The spec's resolver scenario: `chunkSampleSpan = 16`,
`baseLevelDecimation = 4`, one extra level with branch factor 4
(`levelCompression = [4, 16]`), and a stream long enough for the snapped
range. -/
def cfgC5 : ReaderCfg :=
  { LEVELS := 2, CHANNELS := 1, levelSteps := fun _ => 4, length := 512,
    chunkSize := 16, baseLevelStep := 4, allowOriginal := true }

def reqC5 : mipmapReaderView :=
  { startSamples := 0, endSamples := 200, resolution := 10 }

/-- A two-channel spectrum configuration with 8 chunks at the single level
(`levelCompression = [4]`, `chunkSize = 1`, length 32). -/
def cfgC6 : ReaderCfg :=
  { LEVELS := 1, CHANNELS := 2, levelSteps := fun _ => 8, length := 32,
    chunkSize := 1, baseLevelStep := 4, allowOriginal := true }

/-- A view matching level 0 of `cfgC6` whose starting chunk is 2. -/
def viewC6 : mipmapReaderView :=
  { startSamples := 8, endSamples := 12, resolution := 1 }

/-- A minimal two-channel spectrum configuration (one chunk in total). -/
def cfgC8 : ReaderCfg :=
  { LEVELS := 1, CHANNELS := 2, levelSteps := fun _ => 1, length := 4,
    chunkSize := 1, baseLevelStep := 4, allowOriginal := true }

def viewC8 : mipmapReaderView :=
  { startSamples := 0, endSamples := 4, resolution := 1 }

/-- A minimal one-channel configuration for `read`. -/
def cfgC7 : ReaderCfg :=
  { LEVELS := 1, CHANNELS := 1, levelSteps := fun _ => 1, length := 64,
    chunkSize := 1, baseLevelStep := 4, allowOriginal := true }

def viewC7 : mipmapReaderView :=
  { startSamples := 0, endSamples := 4, resolution := 1 }

/-- An all-zero shared buffer. -/
def memZero : ℕ → ℕ := fun _ => 0

/-- A trivial instance of the external `spectrumValue` black box. -/
def specZero : ℤ → ℤ → ℚ := fun _ _ => 0

/-- The output list of `readSpectrum` on the minimal two-channel
configuration `cfgC8` (used by the C8 witness). -/
def outC8 : List ℤ :=
  chunksGo (advanceChunk cfgC8.LEVELS cfgC8.levelSteps)
    (fun s => innerLoop
      (spectrumChunkBody memZero specZero 0 1
        ((((1 : ℤ) : ℚ) - ((0 : ℤ) : ℚ)) / ((1 : ℚ) - (0 : ℚ))) (((0 : ℤ) : ℚ))
        (s.currIndex * cfgC8.CHANNELS * cfgC8.chunkSize))
      cfgC8.chunkSize)
    (goToChunk cfgC8.LEVELS cfgC8.levelSteps st00 0
      (spectrumChunkIndex (cfgC8.length / levelCompression cfgC8 0 / cfgC8.chunkSize)
        (viewC8.startSamples
          / ((viewC8.endSamples - viewC8.startSamples) / viewC8.resolution)
          / cfgC8.chunkSize)))
    (loopCount cfgC8.chunkSize viewC8.resolution)

/-- The spec's description of the per-sample spectrum value, for comparison
with `spectrumChunkBody`: take the unpacked (lower, upper) 32-bit bounds of
the real and imaginary channels, form the conservative estimates
`max(-lowerRe, upperRe)` and `max(-lowerIm, upperIm)`, apply the external
`spectrumValue` function, clamp to `[yLower, yUpper]`, and rescale affinely
(`A`, `B`) to the output integer range. -/
def spectrumSampleSpec (mem : ℕ → ℕ) (specVal : ℤ → ℤ → ℚ)
    (yLower yUpper A B : ℚ) (offs x : ℕ) : ℤ :=
  let wRe := mem (offs + x * 2)
  let wIm := mem (offs + x * 2 + 1)
  let eRe := max (-(lower32 wRe)) (upper32 wRe)
  let eIm := max (-(lower32 wIm)) (upper32 wIm)
  cround ((clampQ (specVal eRe eIm) yLower yUpper - yLower) * A + B)

/-! Basic facts about `stepProd`, `levelSizes` and `digitAt`. -/

lemma stepProd_self (steps : ℕ → ℕ) (a : ℕ) : stepProd steps a a = 1 := by
  simp [stepProd]

lemma stepProd_succ_bot (steps : ℕ → ℕ) {a b : ℕ} (h : a < b) :
    stepProd steps a b = steps a * stepProd steps (a + 1) b := by
  unfold stepProd
  rw [Finset.prod_eq_prod_Ico_succ_bot h]

lemma stepProd_succ_top (steps : ℕ → ℕ) {a b : ℕ} (h : a ≤ b) :
    stepProd steps a (b + 1) = stepProd steps a b * steps b := by
  unfold stepProd
  rw [Finset.prod_Ico_succ_top h]

lemma stepProd_mul (steps : ℕ → ℕ) {a b c : ℕ} (h1 : a ≤ b) (h2 : b ≤ c) :
    stepProd steps a c = stepProd steps a b * stepProd steps b c := by
  unfold stepProd
  rw [Finset.prod_Ico_consecutive _ h1 h2]

lemma stepProd_pos {steps : ℕ → ℕ} {a b : ℕ} (hs : ∀ i, a ≤ i → i < b → 1 ≤ steps i) :
    0 < stepProd steps a b := by
  unfold stepProd
  exact Finset.prod_pos (fun i hi => by
    rcases Finset.mem_Ico.mp hi with ⟨h1, h2⟩
    exact hs i h1 h2)

lemma levelSizes_pos (steps : ℕ → ℕ) (i : ℕ) : 1 ≤ levelSizes steps i := by
  cases i with
  | zero => simp [levelSizes]
  | succ n => simp [levelSizes]

lemma levelSizes_last (steps : ℕ → ℕ) {L : ℕ} (hL : 1 ≤ L) :
    levelSizes steps L = totalChunkCount L steps + 1 := by
  obtain ⟨m, rfl⟩ : ∃ m, L = m + 1 := ⟨L - 1, by omega⟩
  simp [levelSizes, totalChunkCount]

lemma digitAt_lt {steps : ℕ → ℕ} {i : ℕ} (hi : 1 ≤ steps i) (a v : ℕ) :
    digitAt steps a v i < steps i := Nat.mod_lt _ hi

lemma digitAt_base (steps : ℕ → ℕ) (a v : ℕ) : digitAt steps a v a = v % steps a := by
  simp [digitAt, stepProd_self]

lemma digitAt_zero (steps : ℕ → ℕ) (a i : ℕ) : digitAt steps a 0 i = 0 := by
  simp [digitAt]

lemma digitAt_shift (steps : ℕ → ℕ) {a i : ℕ} (h : a < i) (v : ℕ) :
    digitAt steps a v i = digitAt steps (a + 1) (v / steps a) i := by
  unfold digitAt
  rw [stepProd_succ_bot steps h, Nat.div_div_eq_div_mul]

/-- The digit loop of `goToChunk` computes exactly the mixed-radix digits
`index / (steps[a] * ⋯ * steps[i-1]) % steps[i]` on the processed window and
leaves every other entry of the array untouched. -/
lemma digitLoop_spec (steps : ℕ → ℕ) :
    ∀ (n a v : ℕ) (f : ℕ → ℕ),
      (∀ i, a ≤ i → i < a + n →
          (digitLoop steps (List.range' a n) (v, f)).2 i = digitAt steps a v i)
      ∧ (∀ i, i < a ∨ a + n ≤ i →
          (digitLoop steps (List.range' a n) (v, f)).2 i = f i) := by
  intro n
  induction n with
  | zero =>
      intro a v f
      constructor
      · intro i h1 h2
        omega
      · intro i _
        rfl
  | succ n ih =>
      intro a v f
      have hstep : digitLoop steps (List.range' a (n + 1)) (v, f)
          = digitLoop steps (List.range' (a + 1) n)
              (v / steps a, Function.update f a (v % steps a)) := rfl
      constructor
      · intro i h1 h2
        rcases Nat.eq_or_lt_of_le h1 with h1' | h1'
        · subst h1'
          rw [hstep, (ih (a + 1) (v / steps a) (Function.update f a (v % steps a))).2 a
              (Or.inl (by omega))]
          rw [Function.update_same, digitAt_base]
        · rw [hstep, (ih (a + 1) (v / steps a) (Function.update f a (v % steps a))).1 i
              (by omega) (by omega)]
          rw [← digitAt_shift steps h1']
      · intro i hi
        rw [hstep, (ih (a + 1) (v / steps a) (Function.update f a (v % steps a))).2 i
            (by omega)]
        exact Function.update_noteq (by omega) _ f

/-- A fold that only accumulates a sum equals the `Finset` sum over the same
range. -/
lemma foldl_add_sum (g : ℕ → ℕ) :
    ∀ (n a c : ℕ),
      (List.range' a n).foldl (fun acc i => acc + g i) c
        = c + ∑ i ∈ Finset.Ico a (a + n), g i := by
  intro n
  induction n with
  | zero => intro a c; simp
  | succ n ih =>
      intro a c
      have hstep : (List.range' a (n + 1)).foldl (fun acc i => acc + g i) c
          = (List.range' (a + 1) n).foldl (fun acc i => acc + g i) (c + g a) := rfl
      rw [hstep, ih (a + 1) (c + g a),
        Finset.sum_eq_sum_Ico_succ_bot (show a < a + (n + 1) by omega) g,
        show a + 1 + n = a + (n + 1) by omega]
      omega

/-! Characterisation of `goToChunk`. -/

lemma goToChunk_currLevel (L : ℕ) (steps : ℕ → ℕ) (st : FinderState) (level index : ℕ) :
    (goToChunk L steps st level index).currLevel = level := rfl

lemma goToChunk_levelIndex_in (L : ℕ) (steps : ℕ → ℕ) (st : FinderState)
    {level : ℕ} (index : ℕ) (hlev : level ≤ L) :
    ∀ i, level ≤ i → i < L →
      (goToChunk L steps st level index).levelIndex i = digitAt steps level index i := by
  intro i h1 h2
  have := (digitLoop_spec steps (L - level) level index st.levelIndex).1 i h1 (by omega)
  exact this

lemma goToChunk_levelIndex_out (L : ℕ) (steps : ℕ → ℕ) (st : FinderState)
    (level index : ℕ) :
    ∀ i, i < level ∨ L ≤ i →
      (goToChunk L steps st level index).levelIndex i = st.levelIndex i := by
  intro i hi
  exact (digitLoop_spec steps (L - level) level index st.levelIndex).2 i (by omega)

lemma goToChunk_currIndex (L : ℕ) (steps : ℕ → ℕ) (st : FinderState)
    {level : ℕ} (index : ℕ) (hlev : level ≤ L) :
    (goToChunk L steps st level index).currIndex = slotOf steps L level index := by
  show (List.range' level (L - level)).foldl
        (fun acc i => acc + (digitLoop steps (List.range' level (L - level))
          (index, st.levelIndex)).2 i * levelSizes steps i) 0
      + (if 0 < level then steps (level - 1) * levelSizes steps (level - 1) else 0)
    = slotOf steps L level index
  rw [foldl_add_sum
      (fun i => (digitLoop steps (List.range' level (L - level))
        (index, st.levelIndex)).2 i * levelSizes steps i) (L - level) level 0]
  unfold slotOf levelOffset
  rw [show level + (L - level) = L by omega]
  congr 1
  · rw [Nat.zero_add]
    refine Finset.sum_congr rfl (fun i hi => ?_)
    rcases Finset.mem_Ico.mp hi with ⟨h1, h2⟩
    rw [(digitLoop_spec steps (L - level) level index st.levelIndex).1 i h1 (by omega)]

/-! Arithmetic facts about mixed-radix digits that drive the `advanceChunk`
invariant. -/

lemma succ_mod_eq {v s : ℕ} (h : v % s + 1 < s) : (v + 1) % s = v % s + 1 := by
  conv_lhs => rw [← Nat.div_add_mod v s, Nat.add_assoc]
  rw [Nat.mul_add_mod]
  exact Nat.mod_eq_of_lt h

lemma succ_div_eq {v s : ℕ} (h : v % s + 1 < s) : (v + 1) / s = v / s := by
  have hs : 0 < s := by omega
  conv_lhs => rw [← Nat.div_add_mod v s, Nat.add_assoc]
  rw [Nat.mul_add_div hs, Nat.div_eq_of_lt h, Nat.add_zero]

/-- The sum of maxed-out digits weighted by `levelSizes`, in additive form:
`Σ_{i ∈ [level,k)} (steps i - 1) * levelSizes i + levelSizes level + (k - level)
 = levelSizes k`. -/
lemma sumMaxed (steps : ℕ → ℕ) {level k : ℕ} (hlk : level ≤ k) :
    (∀ i, level ≤ i → i < k → 1 ≤ steps i) →
    (∑ i ∈ Finset.Ico level k, (steps i - 1) * levelSizes steps i)
      + levelSizes steps level + (k - level) = levelSizes steps k := by
  induction k, hlk using Nat.le_induction with
  | base => intro _; simp
  | succ k hk ih =>
      intro hs
      rw [Finset.sum_Ico_succ_top hk]
      have hsk : 1 ≤ steps k := hs k hk (by omega)
      have ih' := ih (fun i h1 h2 => hs i h1 (by omega))
      have hsz : levelSizes steps (k + 1) = levelSizes steps k * steps k + 1 := rfl
      obtain ⟨t, ht⟩ : ∃ t, steps k = t + 1 := ⟨steps k - 1, by omega⟩
      rw [hsz, ht]
      have e1 : (t + 1 - 1) * levelSizes steps k = levelSizes steps k * t := by
        rw [Nat.add_sub_cancel]; ring
      have e2 : levelSizes steps k * (t + 1) = levelSizes steps k * t + levelSizes steps k := by
        ring
      omega

/-- Any in-range digit vector indexes a slot strictly below `totalChunkCount`. -/
lemma sum_digits_lt_total (steps : ℕ → ℕ) {L level : ℕ} (hL : 1 ≤ L) (hlev : level < L)
    (hs : ∀ i, i < L → 1 ≤ steps i) (d : ℕ → ℕ)
    (hd : ∀ i, level ≤ i → i < L → d i < steps i) :
    (∑ i ∈ Finset.Ico level L, d i * levelSizes steps i) + levelOffset steps level
      < totalChunkCount L steps := by
  have hmax := sumMaxed steps (le_of_lt hlev) (fun i _ h2 => hs i h2)
  have hle : (∑ i ∈ Finset.Ico level L, d i * levelSizes steps i)
      ≤ ∑ i ∈ Finset.Ico level L, (steps i - 1) * levelSizes steps i := by
    refine Finset.sum_le_sum (fun i hi => ?_)
    rcases Finset.mem_Ico.mp hi with ⟨h1, h2⟩
    exact Nat.mul_le_mul_right _ (by have := hd i h1 h2; omega)
  have hszL := levelSizes_last steps hL
  have hoffs : levelOffset steps level + 1 = levelSizes steps level := by
    cases level with
    | zero => simp [levelOffset, levelSizes]
    | succ m => simp [levelOffset, levelSizes, Nat.mul_comm]
  omega

/-- If all digits of `v` below `k` are maxed out, `v` is congruent to `-1`
modulo the product of those radices. -/
lemma maxed_prefix_mod (steps : ℕ → ℕ) {a k : ℕ} (hak : a ≤ k) :
    (∀ i, a ≤ i → i < k → 1 ≤ steps i) →
    ∀ v, (∀ i, a ≤ i → i < k → digitAt steps a v i = steps i - 1) →
    v % stepProd steps a k = stepProd steps a k - 1 := by
  induction k, hak using Nat.le_induction with
  | base => intro _ v _; simp [stepProd_self, Nat.mod_one]
  | succ k hk ih =>
      intro hs v hmax
      have hsk : 1 ≤ steps k := hs k hk (by omega)
      have hPk : 0 < stepProd steps a k :=
        stepProd_pos (fun i h1 h2 => hs i h1 (by omega))
      have hmod := ih (fun i h1 h2 => hs i h1 (by omega)) v
        (fun i h1 h2 => hmax i h1 (by omega))
      have hdk : v / stepProd steps a k % steps k = steps k - 1 := hmax k hk (by omega)
      rw [stepProd_succ_top steps hk, Nat.mod_mul, hmod, hdk]
      obtain ⟨t, ht⟩ : ∃ t, steps k = t + 1 := ⟨steps k - 1, by omega⟩
      rw [ht]
      have e2 : stepProd steps a k * (t + 1) = stepProd steps a k * t + stepProd steps a k := by
        ring
      simp only [Nat.add_sub_cancel]
      omega

/-- A value strictly below the radix product whose digits are all maxed out is
exactly the predecessor of the product. -/
lemma maxed_value (steps : ℕ → ℕ) {a b v : ℕ} (hab : a ≤ b)
    (hs : ∀ i, a ≤ i → i < b → 1 ≤ steps i)
    (hmax : ∀ i, a ≤ i → i < b → digitAt steps a v i = steps i - 1)
    (hv : v < stepProd steps a b) : v = stepProd steps a b - 1 := by
  have h := maxed_prefix_mod steps hab hs v hmax
  rwa [Nat.mod_eq_of_lt hv] at h

/-- Every digit of `stepProd steps a b - 1` on `[a, b)` is maxed out. -/
lemma digitAt_pred_prod (steps : ℕ → ℕ) {a b i : ℕ} (hai : a ≤ i) (hib : i < b)
    (hs : ∀ j, a ≤ j → j < b → 1 ≤ steps j) :
    digitAt steps a (stepProd steps a b - 1) i = steps i - 1 := by
  have hPi : 0 < stepProd steps a i :=
    stepProd_pos (fun j h1 h2 => hs j h1 (by omega))
  have hQ : 0 < stepProd steps (i + 1) b :=
    stepProd_pos (fun j h1 h2 => hs j (by omega) h2)
  have hsi : 1 ≤ steps i := hs i hai hib
  have hsplit : stepProd steps a b
      = stepProd steps a i * (steps i * stepProd steps (i + 1) b) := by
    rw [stepProd_mul steps hai (le_of_lt hib), stepProd_succ_bot steps hib]
  have hT : 1 ≤ steps i * stepProd steps (i + 1) b := Nat.mul_pos hsi hQ
  have hPT : stepProd steps a i * (steps i * stepProd steps (i + 1) b)
      = stepProd steps a i * (steps i * stepProd steps (i + 1) b - 1) + stepProd steps a i := by
    obtain ⟨t, ht⟩ : ∃ t, steps i * stepProd steps (i + 1) b = t + 1 :=
      ⟨steps i * stepProd steps (i + 1) b - 1, by omega⟩
    rw [ht]
    simp only [Nat.add_sub_cancel]
    ring
  have hN1 : stepProd steps a b - 1
      = (stepProd steps a i - 1)
        + stepProd steps a i * (steps i * stepProd steps (i + 1) b - 1) := by
    omega
  unfold digitAt
  rw [hN1, Nat.add_mul_div_left _ _ hPi, Nat.div_eq_of_lt (by omega), Nat.zero_add]
  have hTQ : steps i * stepProd steps (i + 1) b - 1
      = (steps i - 1) + steps i * (stepProd steps (i + 1) b - 1) := by
    have e : steps i * stepProd steps (i + 1) b
        = steps i * (stepProd steps (i + 1) b - 1) + steps i := by
      obtain ⟨q, hq⟩ : ∃ q, stepProd steps (i + 1) b = q + 1 :=
        ⟨stepProd steps (i + 1) b - 1, by omega⟩
      rw [hq]
      simp only [Nat.add_sub_cancel]
      ring
    omega
  rw [hTQ, Nat.add_mul_mod_self_left]
  exact Nat.mod_eq_of_lt (by omega)

lemma dvd_succ_of_mod_pred {v P : ℕ} (hP : 0 < P) (h : v % P = P - 1) : P ∣ v + 1 := by
  apply Nat.dvd_of_mod_eq_zero
  rw [← Nat.mod_add_mod, h, Nat.sub_add_cancel hP, Nat.mod_self]

lemma div_succ_of_mod_pred {v P : ℕ} (hP : 0 < P) (h : v % P = P - 1) :
    (v + 1) / P = v / P + 1 := by
  obtain ⟨m, hm⟩ := dvd_succ_of_mod_pred hP h
  have hm1 : 1 ≤ m := by
    rcases Nat.eq_zero_or_pos m with rfl | h'
    · omega
    · exact h'
  have hv : v = P * (m - 1) + (P - 1) := by
    have e : P * m = P * (m - 1) + P := by
      obtain ⟨t, rfl⟩ : ∃ t, m = t + 1 := ⟨m - 1, by omega⟩
      simp only [Nat.add_sub_cancel]
      ring
    omega
  rw [hm, Nat.mul_div_cancel_left _ hP, hv, Nat.mul_add_div hP,
    Nat.div_eq_of_lt (by omega)]
  omega

/-- Digits strictly below a position whose prefix product divides the value
are zero. -/
lemma digit_zero_below (steps : ℕ → ℕ) {a i k v : ℕ} (hai : a ≤ i) (hik : i < k)
    (hs : ∀ j, a ≤ j → j < k → 1 ≤ steps j)
    (hdvd : stepProd steps a k ∣ v) :
    digitAt steps a v i = 0 := by
  have h1 : stepProd steps a (i + 1) ∣ stepProd steps a k := by
    rw [stepProd_mul steps (show a ≤ i + 1 by omega) (show i + 1 ≤ k by omega)]
    exact dvd_mul_right _ _
  have h2 : stepProd steps a i * steps i ∣ v := by
    rw [← stepProd_succ_top steps hai]
    exact dvd_trans h1 hdvd
  obtain ⟨m, hm⟩ := h2
  have hPi : 0 < stepProd steps a i :=
    stepProd_pos (fun j h1 h2 => hs j h1 (by omega))
  unfold digitAt
  rw [hm, Nat.mul_assoc, Nat.mul_div_cancel_left _ hPi, Nat.mul_mod_right]

/-- A value below the radix product is determined by its digits. -/
lemma digitAt_inj (steps : ℕ → ℕ) :
    ∀ (n a v w : ℕ), (∀ i, a ≤ i → i < a + n → 1 ≤ steps i) →
      v < stepProd steps a (a + n) → w < stepProd steps a (a + n) →
      (∀ i, a ≤ i → i < a + n → digitAt steps a v i = digitAt steps a w i) →
      v = w := by
  intro n
  induction n with
  | zero =>
      intro a v w _ hv hw _
      have h1 : stepProd steps a (a + 0) = 1 := by
        simpa using stepProd_self steps a
      omega
  | succ n ih =>
      intro a v w hs hv hw hdig
      have hsa : 1 ≤ steps a := hs a (by omega) (by omega)
      have hsplit : stepProd steps a (a + (n + 1))
          = steps a * stepProd steps (a + 1) (a + 1 + n) := by
        rw [show a + (n + 1) = a + 1 + n by omega] at *
        exact stepProd_succ_bot steps (by omega)
      have hmod : v % steps a = w % steps a := by
        have h := hdig a (le_refl a) (by omega)
        rwa [digitAt_base, digitAt_base] at h
      have hdiv : v / steps a = w / steps a := by
        apply ih (a + 1)
        · intro i h1 h2
          exact hs i (by omega) (by omega)
        · rw [hsplit] at hv
          exact Nat.div_lt_of_lt_mul hv
        · rw [hsplit] at hw
          exact Nat.div_lt_of_lt_mul hw
        · intro i h1 h2
          have h := hdig i (by omega) (by omega)
          rwa [digitAt_shift steps (show a < i by omega),
            digitAt_shift steps (show a < i by omega)] at h
      have e1 := Nat.div_add_mod v (steps a)
      have e2 := Nat.div_add_mod w (steps a)
      rw [hdiv] at e1
      omega

/-- The `levelSizes`-weighted sum determines the digit vector (the weight
system is super-increasing). -/
lemma sum_digits_inj (steps : ℕ → ℕ) :
    ∀ (n a : ℕ) (d e : ℕ → ℕ),
      (∀ i, a ≤ i → i < a + n → 1 ≤ steps i) →
      (∀ i, a ≤ i → i < a + n → d i < steps i) →
      (∀ i, a ≤ i → i < a + n → e i < steps i) →
      (∑ i ∈ Finset.Ico a (a + n), d i * levelSizes steps i)
        = (∑ i ∈ Finset.Ico a (a + n), e i * levelSizes steps i) →
      ∀ i, a ≤ i → i < a + n → d i = e i := by
  intro n
  induction n with
  | zero =>
      intro a d e _ _ _ _ i h1 h2
      omega
  | succ n ih =>
      intro a d e hs hd he hsum i h1 h2
      rw [show a + (n + 1) = (a + n) + 1 by omega] at hsum
      rw [Finset.sum_Ico_succ_top (show a ≤ a + n by omega),
        Finset.sum_Ico_succ_top (show a ≤ a + n by omega)] at hsum
      have hmax := sumMaxed steps (show a ≤ a + n by omega)
        (fun j h1 h2 => hs j h1 (by omega))
      have hsza := levelSizes_pos steps a
      have hdb : (∑ i ∈ Finset.Ico a (a + n), d i * levelSizes steps i)
          < levelSizes steps (a + n) := by
        have hle : (∑ i ∈ Finset.Ico a (a + n), d i * levelSizes steps i)
            ≤ ∑ i ∈ Finset.Ico a (a + n), (steps i - 1) * levelSizes steps i := by
          refine Finset.sum_le_sum (fun j hj => ?_)
          rcases Finset.mem_Ico.mp hj with ⟨hj1, hj2⟩
          exact Nat.mul_le_mul_right _ (by have := hd j hj1 (by omega); omega)
        omega
      have heb : (∑ i ∈ Finset.Ico a (a + n), e i * levelSizes steps i)
          < levelSizes steps (a + n) := by
        have hle : (∑ i ∈ Finset.Ico a (a + n), e i * levelSizes steps i)
            ≤ ∑ i ∈ Finset.Ico a (a + n), (steps i - 1) * levelSizes steps i := by
          refine Finset.sum_le_sum (fun j hj => ?_)
          rcases Finset.mem_Ico.mp hj with ⟨hj1, hj2⟩
          exact Nat.mul_le_mul_right _ (by have := he j hj1 (by omega); omega)
        omega
      have htopeq : d (a + n) = e (a + n) := by
        rcases Nat.lt_trichotomy (d (a + n)) (e (a + n)) with h | h | h
        · exfalso
          have hstep : (d (a + n) + 1) * levelSizes steps (a + n)
              ≤ e (a + n) * levelSizes steps (a + n) :=
            Nat.mul_le_mul_right _ (by omega)
          have hexp : (d (a + n) + 1) * levelSizes steps (a + n)
              = d (a + n) * levelSizes steps (a + n) + levelSizes steps (a + n) := by
            ring
          omega
        · exact h
        · exfalso
          have hstep : (e (a + n) + 1) * levelSizes steps (a + n)
              ≤ d (a + n) * levelSizes steps (a + n) :=
            Nat.mul_le_mul_right _ (by omega)
          have hexp : (e (a + n) + 1) * levelSizes steps (a + n)
              = e (a + n) * levelSizes steps (a + n) + levelSizes steps (a + n) := by
            ring
          omega
      rcases Nat.lt_or_ge i (a + n) with h | h
      · refine ih a d e (fun j h1 h2 => hs j h1 (by omega))
          (fun j h1 h2 => hd j h1 (by omega)) (fun j h1 h2 => he j h1 (by omega))
          ?_ i h1 h
        rw [htopeq] at hsum
        omega
      · have hieq : i = a + n := by omega
        rw [hieq]
        exact htopeq

/-- Reducing a value modulo the full radix product does not change any digit
inside the window. -/
lemma digitAt_mod_prod (steps : ℕ → ℕ) {level L i : ℕ} (hli : level ≤ i) (hiL : i < L)
    (hs : ∀ j, level ≤ j → j < L → 1 ≤ steps j) (v : ℕ) :
    digitAt steps level (v % stepProd steps level L) i = digitAt steps level v i := by
  have hPi : 0 < stepProd steps level i :=
    stepProd_pos (fun j h1 h2 => hs j h1 (by omega))
  have hsplit : stepProd steps level L
      = stepProd steps level i * steps i * stepProd steps (i + 1) L := by
    rw [stepProd_mul steps hli (le_of_lt hiL), stepProd_succ_bot steps hiL,
      ← Nat.mul_assoc]
  have hq := Nat.div_add_mod v (stepProd steps level L)
  have hNq : stepProd steps level L * (v / stepProd steps level L)
      = stepProd steps level i
        * (steps i * (stepProd steps (i + 1) L * (v / stepProd steps level L))) := by
    rw [hsplit]; ring
  have hv : v = v % stepProd steps level L
      + stepProd steps level i
        * (steps i * (stepProd steps (i + 1) L * (v / stepProd steps level L))) := by
    omega
  unfold digitAt
  conv_rhs => rw [hv]
  rw [Nat.add_mul_div_left _ _ hPi, Nat.add_mul_mod_self_left]

/-! Characterisation of the carry loop of `advanceChunk`. -/

/-- When the first non-maxed digit in the processed window sits at position
`k`, the carry loop increments the counter once per visited level (that is,
`k + 1 - a` times), zeroes the digits before `k`, and increments the digit at
`k`. -/
lemma carryLoop_found (steps : ℕ → ℕ) :
    ∀ (n a : ℕ) (f : ℕ → ℕ) (c k : ℕ), a ≤ k → k < a + n →
      (∀ j, a ≤ j → j < k → f j = steps j - 1) → f k ≠ steps k - 1 →
      (carryLoop steps (List.range' a n) (f, c)).2 = c + (k + 1 - a)
      ∧ ∀ j, (carryLoop steps (List.range' a n) (f, c)).1 j
          = if j = k then f k + 1 else if a ≤ j ∧ j < k then 0 else f j := by
  intro n
  induction n with
  | zero =>
      intro a f c k h1 h2 _ _
      omega
  | succ n ih =>
      intro a f c k h1 h2 hpre hk
      have hunf : carryLoop steps (List.range' a (n + 1)) (f, c)
          = if f a ≠ steps a - 1 then (Function.update f a (f a + 1), c + 1)
            else carryLoop steps (List.range' (a + 1) n) (Function.update f a 0, c + 1) :=
        rfl
      rcases Nat.eq_or_lt_of_le h1 with rfl | hlt
      · constructor
        · simp only [hunf, if_pos hk]
          omega
        · intro j
          simp only [hunf, if_pos hk, Function.update_apply]
          split_ifs <;> omega
      · have hfa : f a = steps a - 1 := hpre a (le_refl a) hlt
        have hcond : ¬ (f a ≠ steps a - 1) := by simp [hfa]
        have ihh := ih (a + 1) (Function.update f a 0) (c + 1) k (by omega) (by omega)
          (fun j hj1 hj2 => by
            rw [Function.update_apply, if_neg (by omega)]
            exact hpre j (by omega) hj2)
          (by rw [Function.update_apply, if_neg (by omega)]; exact hk)
        constructor
        · simp only [hunf, if_neg hcond]
          rw [ihh.1]
          omega
        · intro j
          simp only [hunf, if_neg hcond]
          rw [ihh.2 j]
          simp only [Function.update_apply]
          split_ifs <;> omega

/-- When every digit in the processed window is maxed out, the carry loop
increments the counter once per level and zeroes the whole window. -/
lemma carryLoop_allmax (steps : ℕ → ℕ) :
    ∀ (n a : ℕ) (f : ℕ → ℕ) (c : ℕ),
      (∀ j, a ≤ j → j < a + n → f j = steps j - 1) →
      (carryLoop steps (List.range' a n) (f, c)).2 = c + n
      ∧ ∀ j, (carryLoop steps (List.range' a n) (f, c)).1 j
          = if a ≤ j ∧ j < a + n then 0 else f j := by
  intro n
  induction n with
  | zero =>
      intro a f c _
      constructor
      · rfl
      · intro j
        rw [if_neg (by omega)]
        rfl
  | succ n ih =>
      intro a f c hmax
      have hfa : f a = steps a - 1 := hmax a (le_refl a) (by omega)
      have hcond : ¬ (f a ≠ steps a - 1) := by simp [hfa]
      have hunf : carryLoop steps (List.range' a (n + 1)) (f, c)
          = if f a ≠ steps a - 1 then (Function.update f a (f a + 1), c + 1)
            else carryLoop steps (List.range' (a + 1) n) (Function.update f a 0, c + 1) :=
        rfl
      have ihh := ih (a + 1) (Function.update f a 0) (c + 1)
        (fun j h1 h2 => by
          rw [Function.update_apply, if_neg (by omega)]
          exact hmax j (by omega) (by omega))
      constructor
      · simp only [hunf, if_neg hcond]
        rw [ihh.1]
        omega
      · intro j
        simp only [hunf, if_neg hcond]
        rw [ihh.2 j]
        simp only [Function.update_apply]
        split_ifs <;> omega

/-! What `v + 1` looks like in mixed-radix digits. -/

/-- Incrementing a value whose lowest digit does not roll over. -/
lemma digits_succ_noroll (steps : ℕ → ℕ) {level v : ℕ}
    (hroll : v % steps level + 1 < steps level) :
    digitAt steps level (v + 1) level = digitAt steps level v level + 1
    ∧ ∀ i, level < i → digitAt steps level (v + 1) i = digitAt steps level v i := by
  constructor
  · rw [digitAt_base, digitAt_base, succ_mod_eq hroll]
  · intro i hi
    rw [digitAt_shift steps hi, digitAt_shift steps hi, succ_div_eq hroll]

/-- Incrementing a value whose digits below `k` are all maxed out and whose
digit at `k` does not roll over: the digits below `k` become `0`, the digit
at `k` is incremented, the digits above `k` are unchanged. -/
lemma digits_succ_carry (steps : ℕ → ℕ) {level k v : ℕ} (hlk : level ≤ k)
    (hs : ∀ i, level ≤ i → i < k → 1 ≤ steps i)
    (hmaxpre : ∀ i, level ≤ i → i < k → digitAt steps level v i = steps i - 1)
    (hkroll : digitAt steps level v k + 1 < steps k) :
    (∀ i, level ≤ i → i < k → digitAt steps level (v + 1) i = 0)
    ∧ digitAt steps level (v + 1) k = digitAt steps level v k + 1
    ∧ ∀ i, k < i → digitAt steps level (v + 1) i = digitAt steps level v i := by
  have hPk : 0 < stepProd steps level k := stepProd_pos hs
  have hmod := maxed_prefix_mod steps hlk hs v hmaxpre
  have hdvd := dvd_succ_of_mod_pred hPk hmod
  have hdivk := div_succ_of_mod_pred hPk hmod
  have hskpos : 0 < steps k := by omega
  refine ⟨?_, ?_, ?_⟩
  · intro i h1 h2
    exact digit_zero_below steps h1 h2 hs hdvd
  · unfold digitAt
    rw [hdivk]
    exact succ_mod_eq hkroll
  · intro i hi
    have hdivk1 : (v + 1) / stepProd steps level (k + 1)
        = v / stepProd steps level (k + 1) := by
      rw [stepProd_succ_top steps hlk, ← Nat.div_div_eq_div_mul,
        ← Nat.div_div_eq_div_mul, hdivk]
      exact succ_div_eq hkroll
    unfold digitAt
    rw [stepProd_mul steps (show level ≤ k + 1 by omega) (show k + 1 ≤ i by omega),
      ← Nat.div_div_eq_div_mul, ← Nat.div_div_eq_div_mul, hdivk1]

/-! The corresponding physical-slot accounting. -/

lemma slotOf_zero (steps : ℕ → ℕ) (L level : ℕ) :
    slotOf steps L level 0 = levelOffset steps level := by
  unfold slotOf
  rw [Finset.sum_eq_zero (fun i _ => by rw [digitAt_zero, Nat.zero_mul]), Nat.zero_add]

lemma slotOf_succ_noroll (steps : ℕ → ℕ) {L level v : ℕ} (hlev : level < L)
    (hroll : v % steps level + 1 < steps level) :
    slotOf steps L level (v + 1) = slotOf steps L level v + levelSizes steps level := by
  obtain ⟨hbase, habove⟩ := digits_succ_noroll steps hroll
  unfold slotOf
  rw [Finset.sum_eq_sum_Ico_succ_bot hlev
      (fun i => digitAt steps level (v + 1) i * levelSizes steps i),
    Finset.sum_eq_sum_Ico_succ_bot hlev
      (fun i => digitAt steps level v i * levelSizes steps i)]
  have htail : (∑ i ∈ Finset.Ico (level + 1) L,
        digitAt steps level (v + 1) i * levelSizes steps i)
      = ∑ i ∈ Finset.Ico (level + 1) L, digitAt steps level v i * levelSizes steps i := by
    refine Finset.sum_congr rfl (fun i hi => ?_)
    rcases Finset.mem_Ico.mp hi with ⟨h1, _⟩
    rw [habove i (by omega)]
  rw [htail, hbase]
  have hexp : (digitAt steps level v level + 1) * levelSizes steps level
      = digitAt steps level v level * levelSizes steps level + levelSizes steps level := by
    ring
  omega

lemma slotOf_succ_carry (steps : ℕ → ℕ) {L level k v : ℕ} (hlk : level ≤ k) (hkL : k < L)
    (hs : ∀ i, i < L → 1 ≤ steps i)
    (hmaxpre : ∀ i, level ≤ i → i < k → digitAt steps level v i = steps i - 1)
    (hkroll : digitAt steps level v k + 1 < steps k) :
    slotOf steps L level (v + 1)
      = slotOf steps L level v + levelSizes steps level + (k - level) := by
  obtain ⟨hlow, hmid, hhigh⟩ := digits_succ_carry steps hlk
    (fun i h1 h2 => hs i (by omega)) hmaxpre hkroll
  unfold slotOf
  rw [← Finset.sum_Ico_consecutive
      (fun i => digitAt steps level (v + 1) i * levelSizes steps i) hlk (le_of_lt hkL),
    ← Finset.sum_Ico_consecutive
      (fun i => digitAt steps level v i * levelSizes steps i) hlk (le_of_lt hkL),
    Finset.sum_eq_sum_Ico_succ_bot hkL
      (fun i => digitAt steps level (v + 1) i * levelSizes steps i),
    Finset.sum_eq_sum_Ico_succ_bot hkL
      (fun i => digitAt steps level v i * levelSizes steps i)]
  have hlow0 : (∑ i ∈ Finset.Ico level k,
        digitAt steps level (v + 1) i * levelSizes steps i) = 0 :=
    Finset.sum_eq_zero (fun i hi => by
      rcases Finset.mem_Ico.mp hi with ⟨h1, h2⟩
      rw [hlow i h1 h2, Nat.zero_mul])
  have hmaxsum : (∑ i ∈ Finset.Ico level k,
        digitAt steps level v i * levelSizes steps i)
      = ∑ i ∈ Finset.Ico level k, (steps i - 1) * levelSizes steps i :=
    Finset.sum_congr rfl (fun i hi => by
      rcases Finset.mem_Ico.mp hi with ⟨h1, h2⟩
      rw [hmaxpre i h1 h2])
  have hA := sumMaxed steps hlk (fun i h1 h2 => hs i (by omega))
  have htail : (∑ i ∈ Finset.Ico (k + 1) L,
        digitAt steps level (v + 1) i * levelSizes steps i)
      = ∑ i ∈ Finset.Ico (k + 1) L, digitAt steps level v i * levelSizes steps i := by
    refine Finset.sum_congr rfl (fun i hi => ?_)
    rcases Finset.mem_Ico.mp hi with ⟨h1, _⟩
    rw [hhigh i (by omega)]
  have hexp : (digitAt steps level v k + 1) * levelSizes steps k
      = digitAt steps level v k * levelSizes steps k + levelSizes steps k := by
    ring
  rw [hlow0, hmaxsum, htail, hmid]
  omega

/-! Unfolding `advanceChunk` in each of its two branches. -/

lemma advanceChunk_eq_noroll (L : ℕ) (steps : ℕ → ℕ) (st : FinderState) (level : ℕ)
    (hcl : st.currLevel = level) (hb : st.levelIndex level ≠ steps level - 1) :
    advanceChunk L steps st
      = { levelIndex := Function.update st.levelIndex level (st.levelIndex level + 1)
          currLevel := level
          currIndex :=
            if totalChunkCount L steps ≤ st.currIndex + levelSizes steps level
            then st.currIndex + levelSizes steps level - totalChunkCount L steps
            else st.currIndex + levelSizes steps level } := by
  simp only [advanceChunk, hcl]
  rw [if_neg hb]

lemma advanceChunk_eq_carry (L : ℕ) (steps : ℕ → ℕ) (st : FinderState) (level : ℕ)
    (hcl : st.currLevel = level) (hb : st.levelIndex level = steps level - 1) :
    advanceChunk L steps st
      = { levelIndex := Function.update
            (carryLoop steps (List.range' (level + 1) (L - (level + 1)))
              (st.levelIndex, st.currIndex + levelSizes steps level)).1 level 0
          currLevel := level
          currIndex :=
            if totalChunkCount L steps
                ≤ (carryLoop steps (List.range' (level + 1) (L - (level + 1)))
                    (st.levelIndex, st.currIndex + levelSizes steps level)).2
            then (carryLoop steps (List.range' (level + 1) (L - (level + 1)))
                    (st.levelIndex, st.currIndex + levelSizes steps level)).2
                  - totalChunkCount L steps
            else (carryLoop steps (List.range' (level + 1) (L - (level + 1)))
                    (st.levelIndex, st.currIndex + levelSizes steps level)).2 } := by
  simp only [advanceChunk, hcl]
  rw [if_pos hb]

/-- `goToChunk` establishes the cursor invariant (for an arbitrary logical
index: the digit loop reduces it modulo the radix product). -/
lemma inv_goToChunk (L : ℕ) (steps : ℕ → ℕ) {level : ℕ} (st : FinderState) (idx : ℕ)
    (hs : ∀ i, i < L → 1 ≤ steps i) (hlev : level < L) :
    Inv L steps level st.levelIndex (idx % stepProd steps level L)
      (goToChunk L steps st level idx) := by
  have hN : 0 < stepProd steps level L := stepProd_pos (fun i _ h2 => hs i h2)
  refine ⟨rfl, Nat.mod_lt _ hN, ?_, ?_, ?_⟩
  · intro i h1 h2
    rw [goToChunk_levelIndex_in L steps st idx (le_of_lt hlev) i h1 h2]
    exact (digitAt_mod_prod steps h1 h2 (fun j _ hj2 => hs j hj2) idx).symm
  · exact goToChunk_levelIndex_out L steps st level idx
  · rw [goToChunk_currIndex L steps st idx (le_of_lt hlev)]
    unfold slotOf
    congr 1
    refine Finset.sum_congr rfl (fun i hi => ?_)
    rcases Finset.mem_Ico.mp hi with ⟨h1, h2⟩
    rw [digitAt_mod_prod steps h1 h2 (fun j _ hj2 => hs j hj2) idx]

/-- `advanceChunk` advances the counter value by one, modulo the number of
nodes at the current level. -/
lemma inv_advance (L : ℕ) (steps : ℕ → ℕ) {level : ℕ} (g : ℕ → ℕ) (v : ℕ)
    (st : FinderState) (hL : 1 ≤ L) (hs : ∀ i, i < L → 1 ≤ steps i) (hlev : level < L)
    (hinv : Inv L steps level g v st) :
    Inv L steps level g ((v + 1) % stepProd steps level L) (advanceChunk L steps st) := by
  obtain ⟨hcl, hvN, hwin, hout, hci⟩ := hinv
  have hNpos : 0 < stepProd steps level L := stepProd_pos (fun i _ h2 => hs i h2)
  have hsl : 1 ≤ steps level := hs level hlev
  have hdigl : st.levelIndex level = digitAt steps level v level :=
    hwin level (le_refl level) hlev
  by_cases hb : st.levelIndex level = steps level - 1
  · -- carry at the current level
    have hdmax : digitAt steps level v level = steps level - 1 := by
      rw [← hdigl]; exact hb
    by_cases hall : ∀ j, level + 1 ≤ j → j < L → st.levelIndex j = steps j - 1
    · -- every digit is maxed out: full wrap to counter value 0
      have hmaxall : ∀ i, level ≤ i → i < L → digitAt steps level v i = steps i - 1 := by
        intro i h1 h2
        rcases Nat.eq_or_lt_of_le h1 with rfl | h1'
        · exact hdmax
        · rw [← hwin i (by omega) h2]
          exact hall i (by omega) h2
      have hveq : v = stepProd steps level L - 1 :=
        maxed_value steps (le_of_lt hlev) (fun i _ h2 => hs i h2) hmaxall hvN
      have hv1 : v + 1 = stepProd steps level L := by omega
      have hmod0 : (v + 1) % stepProd steps level L = 0 := by
        rw [hv1, Nat.mod_self]
      have hCL := carryLoop_allmax steps (L - (level + 1)) (level + 1) st.levelIndex
        (st.currIndex + levelSizes steps level)
        (fun j h1 h2 => hall j h1 (by omega))
      have hsum : (∑ i ∈ Finset.Ico level L, digitAt steps level v i * levelSizes steps i)
          = ∑ i ∈ Finset.Ico level L, (steps i - 1) * levelSizes steps i :=
        Finset.sum_congr rfl (fun i hi => by
          rcases Finset.mem_Ico.mp hi with ⟨h1, h2⟩
          rw [hmaxall i h1 h2])
      have hA := sumMaxed steps (le_of_lt hlev) (fun i _ h2 => hs i h2)
      have hszL := levelSizes_last steps hL
      rw [advanceChunk_eq_carry L steps st level hcl hb]
      set C := carryLoop steps (List.range' (level + 1) (L - (level + 1)))
        (st.levelIndex, st.currIndex + levelSizes steps level) with hCdef
      have hcval : C.2 = totalChunkCount L steps + levelOffset steps level := by
        rw [hCL.1, hci]
        unfold slotOf
        rw [hsum]
        omega
      refine ⟨rfl, ?_, ?_, ?_, ?_⟩
      · rw [hmod0]; exact hNpos
      · intro i h1 h2
        rw [hmod0, digitAt_zero]
        show Function.update C.1 level 0 i = 0
        rcases Nat.eq_or_lt_of_le h1 with rfl | h1'
        · rw [Function.update_same]
        · rw [Function.update_noteq (by omega), hCL.2 i, if_pos ⟨by omega, by omega⟩]
      · intro i hi
        show Function.update C.1 level 0 i = g i
        rw [Function.update_noteq (by omega), hCL.2 i, if_neg (by omega)]
        exact hout i hi
      · show (if totalChunkCount L steps ≤ C.2 then C.2 - totalChunkCount L steps else C.2)
            = slotOf steps L level ((v + 1) % stepProd steps level L)
        rw [hmod0, slotOf_zero, hcval, if_pos (by omega)]
        omega
    · -- carry stops at the least non-maxed level k above `level`
      push_neg at hall
      obtain ⟨j0, hj01, hj02, hj03⟩ := hall
      have hex : ∃ j, level + 1 ≤ j ∧ j < L ∧ st.levelIndex j ≠ steps j - 1 :=
        ⟨j0, hj01, hj02, hj03⟩
      have hkex : ∃ k, (level + 1 ≤ k ∧ k < L ∧ st.levelIndex k ≠ steps k - 1)
          ∧ ∀ j, level + 1 ≤ j → j < k → st.levelIndex j = steps j - 1 := by
        refine ⟨Nat.find hex, Nat.find_spec hex, ?_⟩
        intro j h1 h2
        by_contra hne
        have hjL : j < L := lt_trans h2 (Nat.find_spec hex).2.1
        exact Nat.find_min hex h2 ⟨h1, hjL, hne⟩
      obtain ⟨k, ⟨hk1, hk2, hk3⟩, hpremax⟩ := hkex
      have hmaxpre : ∀ i, level ≤ i → i < k → digitAt steps level v i = steps i - 1 := by
        intro i h1 h2
        rcases Nat.eq_or_lt_of_le h1 with rfl | h1'
        · exact hdmax
        · rw [← hwin i (by omega) (by omega)]
          exact hpremax i (by omega) h2
      have hkdig : st.levelIndex k = digitAt steps level v k := hwin k (by omega) hk2
      have hkne : digitAt steps level v k ≠ steps k - 1 := by
        rw [← hkdig]; exact hk3
      have hkroll : digitAt steps level v k + 1 < steps k := by
        have hlt := digitAt_lt (hs k hk2) level v
        omega
      obtain ⟨hlow, hmid, hhigh⟩ := digits_succ_carry steps (show level ≤ k by omega)
        (fun i h1 h2 => hs i (by omega)) hmaxpre hkroll
      have hv1 : v + 1 < stepProd steps level L := by
        rcases Nat.lt_or_ge (v + 1) (stepProd steps level L) with h | h
        · exact h
        · exfalso
          have hveq : v = stepProd steps level L - 1 := by omega
          have hp := digitAt_pred_prod steps (show level ≤ k by omega) hk2
            (fun j _ h2 => hs j h2)
          rw [← hveq] at hp
          omega
      have hslot := slotOf_succ_carry steps (show level ≤ k by omega) hk2 hs hmaxpre hkroll
      have hCL := carryLoop_found steps (L - (level + 1)) (level + 1) st.levelIndex
        (st.currIndex + levelSizes steps level) k (by omega) (by omega) hpremax hk3
      rw [advanceChunk_eq_carry L steps st level hcl hb]
      set C := carryLoop steps (List.range' (level + 1) (L - (level + 1)))
        (st.levelIndex, st.currIndex + levelSizes steps level) with hCdef
      have hc2 : C.2 = slotOf steps L level (v + 1) := by
        rw [hCL.1, hci, hslot]
        omega
      have hlt' : slotOf steps L level (v + 1) < totalChunkCount L steps := by
        have h := sum_digits_lt_total steps hL hlev hs
          (fun i => digitAt steps level (v + 1) i)
          (fun i _ h2 => digitAt_lt (hs i h2) level (v + 1))
        unfold slotOf
        exact h
      refine ⟨rfl, ?_, ?_, ?_, ?_⟩
      · rw [Nat.mod_eq_of_lt hv1]; exact hv1
      · intro i h1 h2
        rw [Nat.mod_eq_of_lt hv1]
        show Function.update C.1 level 0 i = digitAt steps level (v + 1) i
        rcases Nat.eq_or_lt_of_le h1 with rfl | h1'
        · rw [Function.update_same, hlow level (le_refl level) (by omega)]
        · rw [Function.update_noteq (by omega), hCL.2 i]
          by_cases hik : i = k
          · subst hik
            rw [if_pos rfl, hkdig, hmid]
          · rw [if_neg hik]
            by_cases him : level + 1 ≤ i ∧ i < k
            · rw [if_pos him, hlow i (by omega) (by omega)]
            · rw [if_neg him, hwin i (by omega) h2, hhigh i (by omega)]
      · intro i hi
        show Function.update C.1 level 0 i = g i
        rw [Function.update_noteq (by omega), hCL.2 i, if_neg (by omega),
          if_neg (by omega)]
        exact hout i hi
      · show (if totalChunkCount L steps ≤ C.2 then C.2 - totalChunkCount L steps else C.2)
            = slotOf steps L level ((v + 1) % stepProd steps level L)
        rw [Nat.mod_eq_of_lt hv1, hc2, if_neg (by omega)]
  · -- no carry: the digit at `level` is simply incremented
    have hroll : v % steps level + 1 < steps level := by
      have h1 : v % steps level < steps level := Nat.mod_lt _ (by omega)
      have h2 : v % steps level ≠ steps level - 1 := by
        intro h
        apply hb
        rw [hdigl, digitAt_base, h]
      omega
    have hv1 : v + 1 < stepProd steps level L := by
      rcases Nat.lt_or_ge (v + 1) (stepProd steps level L) with h | h
      · exact h
      · exfalso
        have hveq : v = stepProd steps level L - 1 := by omega
        have hp := digitAt_pred_prod steps (le_refl level) hlev (fun j _ h2 => hs j h2)
        rw [← hveq, digitAt_base] at hp
        omega
    obtain ⟨hbase, habove⟩ := digits_succ_noroll steps hroll
    have hslot := slotOf_succ_noroll steps hlev hroll
    have hlt' : slotOf steps L level (v + 1) < totalChunkCount L steps := by
      have h := sum_digits_lt_total steps hL hlev hs
        (fun i => digitAt steps level (v + 1) i)
        (fun i _ h2 => digitAt_lt (hs i h2) level (v + 1))
      unfold slotOf
      exact h
    rw [advanceChunk_eq_noroll L steps st level hcl hb]
    refine ⟨rfl, ?_, ?_, ?_, ?_⟩
    · rw [Nat.mod_eq_of_lt hv1]; exact hv1
    · intro i h1 h2
      rw [Nat.mod_eq_of_lt hv1]
      show Function.update st.levelIndex level (st.levelIndex level + 1) i
          = digitAt steps level (v + 1) i
      rcases Nat.eq_or_lt_of_le h1 with rfl | h1'
      · rw [Function.update_same, hdigl, hbase]
      · rw [Function.update_noteq (by omega), hwin i (by omega) h2, habove i h1']
    · intro i hi
      show Function.update st.levelIndex level (st.levelIndex level + 1) i = g i
      rw [Function.update_noteq (by omega)]
      exact hout i hi
    · show (if totalChunkCount L steps ≤ st.currIndex + levelSizes steps level
            then st.currIndex + levelSizes steps level - totalChunkCount L steps
            else st.currIndex + levelSizes steps level)
          = slotOf steps L level ((v + 1) % stepProd steps level L)
      rw [Nat.mod_eq_of_lt hv1, hci, if_neg (by omega)]
      omega

/-- The invariant pins the state down completely. -/
lemma inv_det (L : ℕ) (steps : ℕ → ℕ) {level : ℕ} (g : ℕ → ℕ) (v : ℕ)
    {st st' : FinderState} (h1 : Inv L steps level g v st)
    (h2 : Inv L steps level g v st') : st = st' := by
  obtain ⟨a1, _, c1, d1, e1⟩ := h1
  obtain ⟨a2, _, c2, d2, e2⟩ := h2
  have hfi : st.levelIndex = st'.levelIndex := by
    funext i
    rcases Nat.lt_or_ge i level with h | h
    · rw [d1 i (Or.inl h), d2 i (Or.inl h)]
    · rcases Nat.lt_or_ge i L with h' | h'
      · rw [c1 i h h', c2 i h h']
      · rw [d1 i (Or.inr h'), d2 i (Or.inr h')]
  exact FinderState.ext hfi (by rw [a1, a2]) (by rw [e1, e2])

/-- Iterating `advanceChunk` from an invariant state. -/
lemma inv_iterate (L : ℕ) (steps : ℕ → ℕ) {level : ℕ} (g : ℕ → ℕ) (v : ℕ)
    (st : FinderState) (hL : 1 ≤ L) (hs : ∀ i, i < L → 1 ≤ steps i) (hlev : level < L)
    (hinv : Inv L steps level g v st) :
    ∀ t, Inv L steps level g ((v + t) % stepProd steps level L)
      ((advanceChunk L steps)^[t] st) := by
  intro t
  induction t with
  | zero =>
      rw [Function.iterate_zero_apply, Nat.add_zero, Nat.mod_eq_of_lt hinv.2.1]
      exact hinv
  | succ t ih =>
      rw [Function.iterate_succ_apply']
      have hstep := inv_advance L steps g ((v + t) % stepProd steps level L) _ hL hs hlev ih
      have harith : (v + (t + 1)) % stepProd steps level L
          = ((v + t) % stepProd steps level L + 1) % stepProd steps level L := by
        rw [Nat.mod_add_mod, ← Nat.add_assoc]
      rw [harith]
      exact hstep

/-- Physical slots are injective in the counter value. -/
lemma slotOf_inj (L : ℕ) (steps : ℕ → ℕ) {level : ℕ}
    (hs : ∀ i, i < L → 1 ≤ steps i) {v w : ℕ}
    (hv : v < stepProd steps level L) (hw : w < stepProd steps level L)
    (heq : slotOf steps L level v = slotOf steps L level w) : v = w := by
  unfold slotOf at heq
  have hsum : (∑ i ∈ Finset.Ico level L, digitAt steps level v i * levelSizes steps i)
      = ∑ i ∈ Finset.Ico level L, digitAt steps level w i * levelSizes steps i := by
    omega
  rcases Nat.lt_or_ge L level with hL' | hL'
  · have hone : stepProd steps level L = 1 := by
      unfold stepProd
      rw [Finset.Ico_eq_empty (by omega), Finset.prod_empty]
    omega
  · have hLl : level + (L - level) = L := by omega
    have H := sum_digits_inj steps (L - level) level
      (fun i => digitAt steps level v i) (fun i => digitAt steps level w i)
    rw [hLl] at H
    have hdig := H (fun i _ h2 => hs i h2)
      (fun i _ h2 => digitAt_lt (hs i h2) level v)
      (fun i _ h2 => digitAt_lt (hs i h2) level w) hsum
    have H2 := digitAt_inj steps (L - level) level v w
    rw [hLl] at H2
    exact H2 (fun i _ h2 => hs i h2) hv hw hdig

/-- C1: for every valid configuration and in-range `(level, logicalIndex)`,
`goToChunk` stores into `levelIndex[i]` (for `level ≤ i < LEVELS`) the
mixed-radix digits `logicalIndex / (steps[level] ⋯ steps[i-1]) % steps[i]`
(least-significant digit — the node's own local index — at `level`), and sets
`currIndex = Σ_{i ≥ level} levelIndex[i] * levelSizes[i]`, plus
`levelSteps[level-1] * levelSizes[level-1]` when `level > 0`.  In particular
with `branchFactor = [4,4]` (`levelSizes = [1,5]`, `totalChunkCount = 20`),
`goToChunk(0, 7)` yields digits `[3,1]` and `currIndex = 8`. -/
theorem C1_goToChunk_mixed_radix :
    (∀ (L : ℕ) (steps : ℕ → ℕ) (st : FinderState) (level index : ℕ),
        1 ≤ L → (∀ i, i < L → 1 ≤ steps i) → level < L →
        index < totalChunkCount L steps / levelSizes steps level →
        ((∀ i, level ≤ i → i < L →
            (goToChunk L steps st level index).levelIndex i
              = index / stepProd steps level i % steps i)
          ∧ (goToChunk L steps st level index).levelIndex level = index % steps level
          ∧ (goToChunk L steps st level index).currIndex
              = (∑ i ∈ Finset.Ico level L,
                  (index / stepProd steps level i % steps i) * levelSizes steps i)
                + (if 0 < level then steps (level - 1) * levelSizes steps (level - 1)
                   else 0)))
    ∧ ((goToChunk 2 steps44 st00 0 7).levelIndex 0 = 3
        ∧ (goToChunk 2 steps44 st00 0 7).levelIndex 1 = 1
        ∧ (goToChunk 2 steps44 st00 0 7).currIndex = 8
        ∧ levelSizes steps44 0 = 1 ∧ levelSizes steps44 1 = 5
        ∧ totalChunkCount 2 steps44 = 20) := by
  constructor
  · intro L steps st level index hL hs hlev hidx
    refine ⟨?_, ?_, ?_⟩
    · intro i h1 h2
      rw [goToChunk_levelIndex_in L steps st index (le_of_lt hlev) i h1 h2]
      rfl
    · rw [goToChunk_levelIndex_in L steps st index (le_of_lt hlev) level
        (le_refl level) hlev, digitAt_base]
    · rw [goToChunk_currIndex L steps st index (le_of_lt hlev)]
      rfl
  · refine ⟨?_, ?_, ?_, ?_, ?_, ?_⟩ <;> decide

/-- Witness for C1 at the spec's concrete scenario. -/
theorem C1_goToChunk_mixed_radix_witness :
    (1 ≤ 2 ∧ (∀ i, i < 2 → 1 ≤ steps44 i) ∧ 0 < 2
      ∧ 7 < totalChunkCount 2 steps44 / levelSizes steps44 0)
    ∧ ((∀ i, 0 ≤ i → i < 2 →
          (goToChunk 2 steps44 st00 0 7).levelIndex i
            = 7 / stepProd steps44 0 i % steps44 i)
        ∧ (goToChunk 2 steps44 st00 0 7).levelIndex 0 = 7 % steps44 0
        ∧ (goToChunk 2 steps44 st00 0 7).currIndex
            = (∑ i ∈ Finset.Ico 0 2,
                (7 / stepProd steps44 0 i % steps44 i) * levelSizes steps44 i)
              + (if 0 < 0 then steps44 (0 - 1) * levelSizes steps44 (0 - 1) else 0)) :=
  ⟨⟨by norm_num, by decide, by norm_num, by decide⟩,
    C1_goToChunk_mixed_radix.1 2 steps44 st00 0 7 (by norm_num) (by decide)
      (by norm_num) (by decide)⟩

/-- C2 counterexample: with `branchFactor = [4,4]` the sequence of physical
slots at level 0 returns to its start after 16 advances, although
`totalChunkCount / levelSizes[0] = 20`; hence the first
`totalChunkCount / levelSizes[level]` slots are not pairwise distinct and the
period is not `totalChunkCount / levelSizes[level]`. -/
theorem C2_period_counterexample :
    ((advanceChunk 2 steps44)^[16] (goToChunk 2 steps44 st00 0 0)).currIndex
        = (goToChunk 2 steps44 st00 0 0).currIndex
      ∧ 16 < totalChunkCount 2 steps44 / levelSizes steps44 0 := by
  constructor
  · have hs : ∀ i, i < 2 → 1 ≤ steps44 i := by decide
    have hinv0 := @inv_goToChunk 2 steps44 0 st00 0 hs (by norm_num)
    have h16 := (@inv_iterate 2 steps44 0 st00.levelIndex _ _ (by norm_num) hs
      (by norm_num) hinv0 16).2.2.2.2
    rw [h16, hinv0.2.2.2.2]
    decide
  · decide

/-- C2 (amended): for every valid configuration and in-range
`(level, logicalIndex)`, the physical slots produced by `goToChunk` followed
by repeated `advanceChunk` are pairwise distinct for the first
`levelSteps[level] * ⋯ * levelSteps[LEVELS-1]` steps (the number of nodes at
`level`), and the cursor state — wraparound included — repeats with exactly
that period. -/
theorem C2_advance_period :
    ∀ (L : ℕ) (steps : ℕ → ℕ) (st : FinderState) (level index : ℕ),
      1 ≤ L → (∀ i, i < L → 1 ≤ steps i) → level < L →
      index < stepProd steps level L →
      ((∀ t1 t2, t1 < t2 → t2 < stepProd steps level L →
          ((advanceChunk L steps)^[t1] (goToChunk L steps st level index)).currIndex
            ≠ ((advanceChunk L steps)^[t2] (goToChunk L steps st level index)).currIndex)
        ∧ (advanceChunk L steps)^[stepProd steps level L]
            (goToChunk L steps st level index) = goToChunk L steps st level index
        ∧ ∀ t, (advanceChunk L steps)^[t + stepProd steps level L]
              (goToChunk L steps st level index)
            = (advanceChunk L steps)^[t] (goToChunk L steps st level index)) := by
  intro L steps st level index hL hs hlev hidx
  have hN : 0 < stepProd steps level L := stepProd_pos (fun i _ h2 => hs i h2)
  have hmod : index % stepProd steps level L = index := Nat.mod_eq_of_lt hidx
  have hinv0 := inv_goToChunk L steps st index hs hlev
  have hit := inv_iterate L steps st.levelIndex (index % stepProd steps level L)
    _ hL hs hlev hinv0
  have hperiod : (advanceChunk L steps)^[stepProd steps level L]
      (goToChunk L steps st level index) = goToChunk L steps st level index := by
    have hN' := hit (stepProd steps level L)
    have harith : (index % stepProd steps level L + stepProd steps level L)
        % stepProd steps level L = index % stepProd steps level L := by
      rw [Nat.add_mod_right]
      exact Nat.mod_eq_of_lt (Nat.mod_lt _ hN)
    rw [harith] at hN'
    exact inv_det L steps st.levelIndex (index % stepProd steps level L) hN' hinv0
  refine ⟨?_, hperiod, ?_⟩
  · intro t1 t2 h12 h2N hne
    have hv1 := (hit t1).2.2.2.2
    have hv2 := (hit t2).2.2.2.2
    rw [hmod] at hv1 hv2
    have heq : slotOf steps L level ((index + t1) % stepProd steps level L)
        = slotOf steps L level ((index + t2) % stepProd steps level L) := by
      rw [← hv1, ← hv2, hne]
    have hveq := slotOf_inj L steps hs (Nat.mod_lt _ hN) (Nat.mod_lt _ hN) heq
    have hmodeq : index + t1 ≡ index + t2 [MOD stepProd steps level L] := hveq
    have hdvd := (Nat.modEq_iff_dvd' (by omega)).mp hmodeq
    have hsub : index + t2 - (index + t1) = t2 - t1 := by omega
    rw [hsub] at hdvd
    have hle := Nat.le_of_dvd (by omega) hdvd
    omega
  · intro t
    rw [Function.iterate_add_apply, hperiod]

/-- Witness for C2 at `branchFactor = [4,4]`, level 0 (period `16`). -/
theorem C2_advance_period_witness :
    (1 ≤ 2 ∧ (∀ i, i < 2 → 1 ≤ steps44 i) ∧ 0 < 2 ∧ 0 < stepProd steps44 0 2)
    ∧ (advanceChunk 2 steps44)^[stepProd steps44 0 2] (goToChunk 2 steps44 st00 0 0)
        = goToChunk 2 steps44 st00 0 0 :=
  ⟨⟨by norm_num, by decide, by norm_num, by decide⟩,
    (C2_advance_period 2 steps44 st00 0 0 (by norm_num) (by decide) (by norm_num)
      (by decide)).2.1⟩

/-- C3: for every valid configuration, after `goToChunk` at any
`(level, logicalIndex)` and any number of subsequent `advanceChunk` calls,
`currIndex` lies in `[0, totalChunkCount)` (the lower bound is inherent to
the `ℕ` model; the content is the upper bound). -/
theorem C3_currIndex_in_range :
    ∀ (L : ℕ) (steps : ℕ → ℕ) (st : FinderState) (level index t : ℕ),
      1 ≤ L → (∀ i, i < L → 1 ≤ steps i) → level < L →
      ((advanceChunk L steps)^[t] (goToChunk L steps st level index)).currIndex
        < totalChunkCount L steps := by
  intro L steps st level index t hL hs hlev
  have hinv0 := inv_goToChunk L steps st index hs hlev
  have hit := inv_iterate L steps st.levelIndex _ _ hL hs hlev hinv0 t
  rw [hit.2.2.2.2]
  have h := sum_digits_lt_total steps hL hlev hs
    (fun i => digitAt steps level
      ((index % stepProd steps level L + t) % stepProd steps level L) i)
    (fun i _ h2 => digitAt_lt (hs i h2) _ _)
  unfold slotOf
  exact h

/-- Witness for C3: concrete bound check after five advances. -/
theorem C3_currIndex_in_range_witness :
    (1 ≤ 2 ∧ (∀ i, i < 2 → 1 ≤ steps44 i) ∧ 0 < 2)
    ∧ ((advanceChunk 2 steps44)^[5] (goToChunk 2 steps44 st00 0 7)).currIndex
        < totalChunkCount 2 steps44 :=
  ⟨⟨by norm_num, by decide, by norm_num⟩,
    C3_currIndex_in_range 2 steps44 st00 0 7 5 (by norm_num) (by decide) (by norm_num)⟩

/-! Characterisation of the resolver. -/

lemma scanLevels_some_iff (cfg : ReaderCfg) (span res : ℕ) :
    ∀ n i, scanLevels cfg span res n = some i
      ↔ i < n ∧ levelCompression cfg i * res ≤ span
        ∧ ∀ j, i < j → j < n → ¬ levelCompression cfg j * res ≤ span := by
  intro n
  induction n with
  | zero =>
      intro i
      constructor
      · intro h
        cases h
      · rintro ⟨h, _, _⟩
        omega
  | succ n ih =>
      intro i
      by_cases hc : levelCompression cfg n * res ≤ span
      · rw [show scanLevels cfg span res (n + 1)
            = if levelCompression cfg n * res ≤ span then some n
              else scanLevels cfg span res n from rfl, if_pos hc]
        constructor
        · intro h
          injection h with h
          subst h
          exact ⟨by omega, hc, fun j hj1 hj2 => by omega⟩
        · rintro ⟨h1, h2, h3⟩
          rcases Nat.lt_or_ge i n with h | h
          · exact absurd hc (h3 n h (by omega))
          · have hin : i = n := by omega
            rw [hin]
      · rw [show scanLevels cfg span res (n + 1)
            = if levelCompression cfg n * res ≤ span then some n
              else scanLevels cfg span res n from rfl, if_neg hc, ih i]
        constructor
        · rintro ⟨h1, h2, h3⟩
          refine ⟨by omega, h2, ?_⟩
          intro j hj1 hj2
          rcases Nat.lt_or_ge j n with h | h
          · exact h3 j hj1 h
          · have hjn : j = n := by omega
            rw [hjn]
            exact hc
        · rintro ⟨h1, h2, h3⟩
          have hin : i ≠ n := by
            rintro rfl
            exact hc h2
          exact ⟨by omega, h2, fun j hj1 hj2 => h3 j hj1 (by omega)⟩

lemma scanLevels_none_iff (cfg : ReaderCfg) (span res : ℕ) :
    ∀ n, scanLevels cfg span res n = none
      ↔ ∀ j, j < n → ¬ levelCompression cfg j * res ≤ span := by
  intro n
  induction n with
  | zero =>
      constructor
      · intro _ j hj
        omega
      · intro _
        rfl
  | succ n ih =>
      by_cases hc : levelCompression cfg n * res ≤ span
      · rw [show scanLevels cfg span res (n + 1)
            = if levelCompression cfg n * res ≤ span then some n
              else scanLevels cfg span res n from rfl, if_pos hc]
        constructor
        · intro h
          cases h
        · intro h
          exact absurd hc (h n (by omega))
      · rw [show scanLevels cfg span res (n + 1)
            = if levelCompression cfg n * res ≤ span then some n
              else scanLevels cfg span res n from rfl, if_neg hc, ih]
        constructor
        · intro h j hj
          rcases Nat.lt_or_ge j n with h' | h'
          · exact h j h'
          · have hjn : j = n := by omega
            rw [hjn]
            exact hc
        · intro h j hj
          exact h j (by omega)

lemma requestView_scan_some (cfg : ReaderCfg) (req : mipmapReaderView) (i : ℕ)
    (h1 : req.startSamples < cfg.length) (h2 : req.startSamples < req.endSamples)
    (h3 : req.endSamples ≤ cfg.length)
    (hscan : scanLevels cfg (req.endSamples - req.startSamples) req.resolution
      cfg.LEVELS = some i) :
    requestView cfg req = snapToLevel cfg req i := by
  unfold requestView
  rw [if_pos ⟨h1, h2, h3⟩]
  simp only [hscan]

lemma requestView_scan_none (cfg : ReaderCfg) (req : mipmapReaderView)
    (h1 : req.startSamples < cfg.length) (h2 : req.startSamples < req.endSamples)
    (h3 : req.endSamples ≤ cfg.length)
    (hscan : scanLevels cfg (req.endSamples - req.startSamples) req.resolution
      cfg.LEVELS = none) :
    requestView cfg req
      = if cfg.allowOriginal then
          some ({ startSamples := req.startSamples, endSamples := req.endSamples,
                  resolution := req.endSamples - req.startSamples }, none)
        else snapToLevel cfg req 0 := by
  unfold requestView
  rw [if_pos ⟨h1, h2, h3⟩]
  simp only [hscan]

lemma snapToLevel_pass (cfg : ReaderCfg) (req : mipmapReaderView) (i : ℕ)
    (he : (req.endSamples + levelCompression cfg i * cfg.chunkSize - 1)
        / (levelCompression cfg i * cfg.chunkSize)
        * (levelCompression cfg i * cfg.chunkSize) ≤ cfg.length) :
    snapToLevel cfg req i
      = some ({ startSamples :=
                  req.startSamples / (levelCompression cfg i * cfg.chunkSize)
                    * (levelCompression cfg i * cfg.chunkSize),
                endSamples :=
                  (req.endSamples + levelCompression cfg i * cfg.chunkSize - 1)
                    / (levelCompression cfg i * cfg.chunkSize)
                    * (levelCompression cfg i * cfg.chunkSize),
                resolution :=
                  ((req.endSamples + levelCompression cfg i * cfg.chunkSize - 1)
                      / (levelCompression cfg i * cfg.chunkSize)
                      * (levelCompression cfg i * cfg.chunkSize)
                    - req.startSamples / (levelCompression cfg i * cfg.chunkSize)
                      * (levelCompression cfg i * cfg.chunkSize))
                    / levelCompression cfg i }, some i) := by
  unfold snapToLevel
  rw [if_pos he]

lemma snapToLevel_fail (cfg : ReaderCfg) (req : mipmapReaderView) (i : ℕ)
    (he : cfg.length
        < (req.endSamples + levelCompression cfg i * cfg.chunkSize - 1)
        / (levelCompression cfg i * cfg.chunkSize)
        * (levelCompression cfg i * cfg.chunkSize)) :
    snapToLevel cfg req i = none := by
  unfold snapToLevel
  rw [if_neg (by omega)]

lemma snapToLevel_some_fields (cfg : ReaderCfg) (req v : mipmapReaderView) (i j : ℕ)
    (h : snapToLevel cfg req j = some (v, some i)) :
    v.startSamples
        = req.startSamples / (levelCompression cfg i * cfg.chunkSize)
          * (levelCompression cfg i * cfg.chunkSize)
      ∧ v.endSamples
        = (req.endSamples + levelCompression cfg i * cfg.chunkSize - 1)
          / (levelCompression cfg i * cfg.chunkSize)
          * (levelCompression cfg i * cfg.chunkSize)
      ∧ v.resolution = (v.endSamples - v.startSamples) / levelCompression cfg i
      ∧ v.endSamples ≤ cfg.length := by
  unfold snapToLevel at h
  by_cases he : (req.endSamples + levelCompression cfg j * cfg.chunkSize - 1)
      / (levelCompression cfg j * cfg.chunkSize)
      * (levelCompression cfg j * cfg.chunkSize) ≤ cfg.length
  · rw [if_pos he] at h
    simp only [Option.some.injEq, Prod.mk.injEq] at h
    obtain ⟨hv, hj⟩ := h
    subst hj
    rw [← hv]
    exact ⟨rfl, rfl, rfl, he⟩
  · rw [if_neg he] at h
    exact absurd h (by simp)

/-- C4 (amended): `requestView` selects the largest level index `i` with
`levelCompression[i] ≤ requestedSpan / requestedResolution`; if no level
qualifies and `allowOriginal` is set it returns the request verbatim with
the resolution replaced by the span and signals raw as the chosen level (and
this path never fails); if no level qualifies and `allowOriginal` is false
it uses the finest level 0.  Contrary to the original claim, a request
satisfying the caller precondition can still fail: whenever a stored level
is used and the end snapped up to a multiple of
`levelCompression[i] * chunkSize` exceeds `streamLength`, the final
assertion fails. -/
theorem C4_requestView_level_selection :
    (∀ (cfg : ReaderCfg) (span res i : ℕ),
        (scanLevels cfg span res cfg.LEVELS = some i
          ↔ i < cfg.LEVELS ∧ levelCompression cfg i * res ≤ span
            ∧ ∀ j, i < j → j < cfg.LEVELS → ¬ levelCompression cfg j * res ≤ span)
        ∧ (scanLevels cfg span res cfg.LEVELS = none
          ↔ ∀ j, j < cfg.LEVELS → ¬ levelCompression cfg j * res ≤ span))
    ∧ (∀ (cfg : ReaderCfg) (req : mipmapReaderView),
        req.startSamples < cfg.length → req.startSamples < req.endSamples →
        req.endSamples ≤ cfg.length →
        ((∀ i, scanLevels cfg (req.endSamples - req.startSamples) req.resolution
              cfg.LEVELS = some i →
            (((req.endSamples + levelCompression cfg i * cfg.chunkSize - 1)
                / (levelCompression cfg i * cfg.chunkSize)
                * (levelCompression cfg i * cfg.chunkSize) ≤ cfg.length →
              requestView cfg req
                = some ({ startSamples :=
                            req.startSamples / (levelCompression cfg i * cfg.chunkSize)
                              * (levelCompression cfg i * cfg.chunkSize),
                          endSamples :=
                            (req.endSamples
                                + levelCompression cfg i * cfg.chunkSize - 1)
                              / (levelCompression cfg i * cfg.chunkSize)
                              * (levelCompression cfg i * cfg.chunkSize),
                          resolution :=
                            ((req.endSamples
                                  + levelCompression cfg i * cfg.chunkSize - 1)
                                / (levelCompression cfg i * cfg.chunkSize)
                                * (levelCompression cfg i * cfg.chunkSize)
                              - req.startSamples
                                / (levelCompression cfg i * cfg.chunkSize)
                                * (levelCompression cfg i * cfg.chunkSize))
                              / levelCompression cfg i }, some i))
            ∧ (cfg.length
                  < (req.endSamples + levelCompression cfg i * cfg.chunkSize - 1)
                    / (levelCompression cfg i * cfg.chunkSize)
                    * (levelCompression cfg i * cfg.chunkSize) →
              requestView cfg req = none)))
        ∧ (scanLevels cfg (req.endSamples - req.startSamples) req.resolution
              cfg.LEVELS = none →
            (cfg.allowOriginal = true →
              requestView cfg req
                = some ({ startSamples := req.startSamples,
                          endSamples := req.endSamples,
                          resolution := req.endSamples - req.startSamples }, none))
            ∧ (cfg.allowOriginal = false →
              requestView cfg req = snapToLevel cfg req 0)))) := by
  refine ⟨?_, ?_⟩
  · intro cfg span res i
    exact ⟨scanLevels_some_iff cfg span res cfg.LEVELS i,
      scanLevels_none_iff cfg span res cfg.LEVELS⟩
  · intro cfg req h1 h2 h3
    refine ⟨?_, ?_⟩
    · intro i hscan
      refine ⟨?_, ?_⟩
      · intro he
        rw [requestView_scan_some cfg req i h1 h2 h3 hscan,
          snapToLevel_pass cfg req i he]
      · intro he
        rw [requestView_scan_some cfg req i h1 h2 h3 hscan,
          snapToLevel_fail cfg req i he]
    · intro hscan
      refine ⟨?_, ?_⟩
      · intro hA
        rw [requestView_scan_none cfg req h1 h2 h3 hscan, if_pos hA]
      · intro hA
        rw [requestView_scan_none cfg req h1 h2 h3 hscan,
          if_neg (by simp [hA])]

/-- C4 counterexample: the request `[0, 200)` at resolution 50 on a stream
of length 200 with `levelCompression = [4]`, `chunkSize = 16` satisfies the
caller precondition, selects level 0, snaps the end up to `256 > 200`, and
fails the final assertion — `requestView` does fail such a request. -/
theorem C4_requestView_can_fail :
    (reqC4.startSamples < reqC4.endSamples ∧ reqC4.endSamples ≤ cfgC4.length)
    ∧ requestView cfgC4 reqC4 = none := by
  exact ⟨by decide, by decide⟩

/-- Witness for C4 on a request that succeeds through a stored level. -/
theorem C4_requestView_level_selection_witness :
    (reqC5.startSamples < cfgC5.length ∧ reqC5.startSamples < reqC5.endSamples
      ∧ reqC5.endSamples ≤ cfgC5.length
      ∧ scanLevels cfgC5 (reqC5.endSamples - reqC5.startSamples) reqC5.resolution
          cfgC5.LEVELS = some 1
      ∧ (reqC5.endSamples + levelCompression cfgC5 1 * cfgC5.chunkSize - 1)
          / (levelCompression cfgC5 1 * cfgC5.chunkSize)
          * (levelCompression cfgC5 1 * cfgC5.chunkSize) ≤ cfgC5.length)
    ∧ requestView cfgC5 reqC5
        = some ({ startSamples := 0, endSamples := 256, resolution := 16 }, some 1) :=
  ⟨⟨by decide, by decide, by decide, by decide, by decide⟩,
    ((C4_requestView_level_selection.2 cfgC5 reqC5 (by decide) (by decide)
      (by decide)).1 1 (by decide)).1 (by decide)⟩

/-- C5: when `requestView` chooses a stored level `i` with
`c = levelCompression[i]` and `roundTo = c * chunkSize`, the returned view
has `startSamples` snapped down to a multiple of `roundTo`, `endSamples`
snapped up to a multiple of `roundTo`, and
`resolution = (snappedEnd - snappedStart) / c`; with `chunkSize = 16`,
`baseLevelStep = 4`, `branchFactor = [4]` (`levelCompression = [4, 16]`), a
request of resolution 10 over a 200-sample span selects level 1 and snaps to
256-sample boundaries. -/
theorem C5_requestView_snapping :
    (∀ (cfg : ReaderCfg) (req v : mipmapReaderView) (i : ℕ),
        requestView cfg req = some (v, some i) →
        v.startSamples
            = req.startSamples / (levelCompression cfg i * cfg.chunkSize)
              * (levelCompression cfg i * cfg.chunkSize)
          ∧ v.endSamples
            = (req.endSamples + levelCompression cfg i * cfg.chunkSize - 1)
              / (levelCompression cfg i * cfg.chunkSize)
              * (levelCompression cfg i * cfg.chunkSize)
          ∧ v.resolution = (v.endSamples - v.startSamples) / levelCompression cfg i
          ∧ v.endSamples ≤ cfg.length)
    ∧ (levelCompression cfgC5 0 = 4 ∧ levelCompression cfgC5 1 = 16
        ∧ levelCompression cfgC5 1 * cfgC5.chunkSize = 256
        ∧ requestView cfgC5 reqC5
            = some ({ startSamples := 0, endSamples := 256, resolution := 16 },
                some 1)) := by
  refine ⟨?_, by decide, by decide, by decide, by decide⟩
  intro cfg req v i h
  by_cases hpre : req.startSamples < cfg.length
      ∧ req.startSamples < req.endSamples ∧ req.endSamples ≤ cfg.length
  case neg =>
    unfold requestView at h
    rw [if_neg hpre] at h
    exact absurd h (by simp)
  case pos =>
    obtain ⟨h1, h2, h3⟩ := hpre
    cases hscan : scanLevels cfg (req.endSamples - req.startSamples) req.resolution
        cfg.LEVELS with
    | some j =>
        rw [requestView_scan_some cfg req j h1 h2 h3 hscan] at h
        exact snapToLevel_some_fields cfg req v i j h
    | none =>
        rw [requestView_scan_none cfg req h1 h2 h3 hscan] at h
        by_cases hA : cfg.allowOriginal = true
        · rw [if_pos hA] at h
          simp only [Option.some.injEq, Prod.mk.injEq] at h
          exact absurd h.2 (by simp)
        · rw [if_neg hA] at h
          exact snapToLevel_some_fields cfg req v i 0 h

/-- Witness for C5 at the spec's resolver scenario. -/
theorem C5_requestView_snapping_witness :
    requestView cfgC5 reqC5
        = some ({ startSamples := 0, endSamples := 256, resolution := 16 }, some 1)
      ∧ ((0 : ℕ) = 0 / (levelCompression cfgC5 1 * cfgC5.chunkSize)
            * (levelCompression cfgC5 1 * cfgC5.chunkSize)
        ∧ (256 : ℕ) = (200 + levelCompression cfgC5 1 * cfgC5.chunkSize - 1)
            / (levelCompression cfgC5 1 * cfgC5.chunkSize)
            * (levelCompression cfgC5 1 * cfgC5.chunkSize)
        ∧ (16 : ℕ) = (256 - 0) / levelCompression cfgC5 1
        ∧ (256 : ℕ) ≤ cfgC5.length) :=
  ⟨by decide,
    C5_requestView_snapping.1 cfgC5 reqC5
      { startSamples := 0, endSamples := 256, resolution := 16 } 1 (by decide)⟩

/-- C9 counterexample: `mipmapChunkFinder::init` contains no validation at
all; for the invalid configuration `LEVELS = 1`, `branchFactor = [0]` it
completes normally instead of failing. -/
theorem C9_init_not_rejected :
    ¬ (∀ (L : ℕ) (steps : ℕ → ℕ),
        (L < 1 ∨ ∃ i, i < L ∧ steps i < 1) → finderInit L steps = none) := by
  intro h
  have hbad := h 1 (fun _ => 0) (Or.inr ⟨0, by norm_num, by norm_num⟩)
  simp [finderInit] at hbad

/-- C9 (amended): `init` performs no validation and never fails: for every
configuration — also those violating `LEVELS ≥ 1` or `branchFactor[i] ≥ 1`
— it completes, returning the `levelSizes` recurrence values and
`totalChunkCount = levelSizes[LEVELS-1] * levelSteps[LEVELS-1]`.  In
particular `branchFactor = [0]` yields `totalChunkCount = 0` (an indexer no
call can use meaningfully), with no fatal rejection anywhere. -/
theorem C9_init_total :
    (∀ (L : ℕ) (steps : ℕ → ℕ),
        finderInit L steps = some (levelSizes steps, totalChunkCount L steps)
          ∧ levelSizes steps 0 = 1
          ∧ (∀ i, levelSizes steps (i + 1) = levelSizes steps i * steps i + 1)
          ∧ totalChunkCount L steps = levelSizes steps (L - 1) * steps (L - 1))
    ∧ finderInit 1 (fun _ => 0) = some (levelSizes (fun _ => 0), 0)
    ∧ totalChunkCount 1 (fun _ => 0) = 0 := by
  refine ⟨?_, rfl, rfl⟩
  intro L steps
  exact ⟨rfl, rfl, fun i => rfl, rfl⟩

/-- C10: the resolver can abort on an in-bounds request: with
`levelCompression = [4]`, `chunkSize = 16` (`roundTo = 64`) and a stream
length of 100 (not a multiple of 64), the request `[0, 100)` at
resolution 10 satisfies the caller precondition `0 ≤ start < end ≤ length`,
selects level 0, snaps `endSamples` up to `128 > 100`, and the final
assertion `returned.endSamples <= length` fails. -/
theorem C10_requestView_assert_can_fire :
    (reqC10.startSamples < reqC10.endSamples ∧ reqC10.endSamples ≤ cfgC10.length
      ∧ reqC10.endSamples = cfgC10.length
      ∧ cfgC10.length % (levelCompression cfgC10 0 * cfgC10.chunkSize) ≠ 0)
    ∧ requestView cfgC10 reqC10 = none := by
  exact ⟨by decide, by decide⟩

/-! Characterisation of the extraction paths. -/

lemma firstMatch_none_iff (cfg : ReaderCfg) (comp : ℕ) :
    ∀ (n i0 : ℕ), firstMatch cfg comp i0 n = none
      ↔ ∀ j, i0 ≤ j → j < i0 + n → levelCompression cfg j ≠ comp := by
  intro n
  induction n with
  | zero =>
      intro i0
      constructor
      · intro _ j h1 h2
        omega
      · intro _
        rfl
  | succ n ih =>
      intro i0
      by_cases hc : levelCompression cfg i0 = comp
      · rw [show firstMatch cfg comp i0 (n + 1)
            = if levelCompression cfg i0 = comp then some i0
              else firstMatch cfg comp (i0 + 1) n from rfl, if_pos hc]
        constructor
        · intro h
          cases h
        · intro h
          exact absurd hc (h i0 (le_refl i0) (by omega))
      · rw [show firstMatch cfg comp i0 (n + 1)
            = if levelCompression cfg i0 = comp then some i0
              else firstMatch cfg comp (i0 + 1) n from rfl, if_neg hc, ih (i0 + 1)]
        constructor
        · intro h j h1 h2
          rcases Nat.eq_or_lt_of_le h1 with rfl | h1'
          · exact hc
          · exact h j (by omega) (by omega)
        · intro h j h1 h2
          exact h j (by omega) (by omega)

lemma firstMatch_some_spec (cfg : ReaderCfg) (comp : ℕ) :
    ∀ (n i0 i : ℕ), firstMatch cfg comp i0 n = some i →
      levelCompression cfg i = comp ∧ i0 ≤ i ∧ i < i0 + n := by
  intro n
  induction n with
  | zero =>
      intro i0 i h
      cases h
  | succ n ih =>
      intro i0 i h
      by_cases hc : levelCompression cfg i0 = comp
      · rw [show firstMatch cfg comp i0 (n + 1)
            = if levelCompression cfg i0 = comp then some i0
              else firstMatch cfg comp (i0 + 1) n from rfl, if_pos hc] at h
        injection h with h
        subst h
        exact ⟨hc, le_refl i0, by omega⟩
      · rw [show firstMatch cfg comp i0 (n + 1)
            = if levelCompression cfg i0 = comp then some i0
              else firstMatch cfg comp (i0 + 1) n from rfl, if_neg hc] at h
        obtain ⟨h1, h2, h3⟩ := ih (i0 + 1) i h
        exact ⟨h1, by omega, by omega⟩

lemma read_error_iff (cfg : ReaderCfg) (fst : FinderState) (mem : ℕ → ℕ)
    (valMin valMax : ℤ) (view : mipmapReaderView) (yLower yUpper : ℚ) :
    (read cfg fst mem valMin valMax view yLower yUpper
        = Except.error "no mipmap level for this resolution")
      ↔ firstMatch cfg ((view.endSamples - view.startSamples) / view.resolution) 0
          cfg.LEVELS = none := by
  cases hm : firstMatch cfg ((view.endSamples - view.startSamples) / view.resolution)
      0 cfg.LEVELS with
  | none => simp [read, hm]
  | some i => simp [read, hm]

lemma readSpectrum_error_iff (cfg : ReaderCfg) (specVal : ℤ → ℤ → ℚ)
    (fst : FinderState) (mem : ℕ → ℕ) (valMin valMax : ℤ)
    (view : mipmapReaderView) (yLower yUpper : ℚ) :
    (readSpectrum cfg specVal fst mem valMin valMax view yLower yUpper
        = Except.error "no mipmap level for this resolution")
      ↔ firstMatch cfg ((view.endSamples - view.startSamples) / view.resolution) 0
          cfg.LEVELS = none := by
  cases hm : firstMatch cfg ((view.endSamples - view.startSamples) / view.resolution)
      0 cfg.LEVELS with
  | none => simp [readSpectrum, hm]
  | some i => simp [readSpectrum, hm]

lemma readSpectrum_ok_eq (cfg : ReaderCfg) (specVal : ℤ → ℤ → ℚ)
    (fst : FinderState) (mem : ℕ → ℕ) (valMin valMax : ℤ)
    (view : mipmapReaderView) (yLower yUpper : ℚ) (i : ℕ)
    (hm : firstMatch cfg ((view.endSamples - view.startSamples) / view.resolution) 0
      cfg.LEVELS = some i) :
    readSpectrum cfg specVal fst mem valMin valMax view yLower yUpper
      = Except.ok (chunksGo (advanceChunk cfg.LEVELS cfg.levelSteps)
          (fun s => innerLoop
            (spectrumChunkBody mem specVal yLower yUpper
              (((valMax : ℚ) - (valMin : ℚ)) / (yUpper - yLower)) ((valMin : ℚ))
              (s.currIndex * cfg.CHANNELS * cfg.chunkSize))
            cfg.chunkSize)
          (goToChunk cfg.LEVELS cfg.levelSteps fst i
            (spectrumChunkIndex (cfg.length / levelCompression cfg i / cfg.chunkSize)
              (view.startSamples
                / ((view.endSamples - view.startSamples) / view.resolution)
                / cfg.chunkSize)))
          (loopCount cfg.chunkSize view.resolution)) := by
  simp only [readSpectrum, hm]

lemma spectrumChunkIndex_mod {T s : ℕ} (h : s < T) :
    spectrumChunkIndex T s = (s + T / 2) % T := by
  have hT : 0 < T := by omega
  have hT2 : T / 2 < T := Nat.div_lt_self hT (by norm_num)
  unfold spectrumChunkIndex
  by_cases hc : s + T / 2 ≥ T
  · rw [if_pos hc, Nat.mod_eq_sub_mod hc, Nat.mod_eq_of_lt (by omega)]
  · rw [if_neg hc, Nat.mod_eq_of_lt (by omega)]

/-- C6: in `readSpectrum`, with
`totalChunks = streamLength / levelCompression[i] / chunkSampleSpan` at the
matched level `i`, reading starts at the physical chunk of the logical index
`(startSamples / compression / chunkSampleSpan + totalChunks/2) mod
totalChunks` (the wrap is a single conditional subtraction, which agrees
with the modulus whenever the un-centred start chunk is in range); in
particular with `totalChunksAtLevel = 8` and start chunk 2, reading begins
at logical index `(2 + 4) mod 8 = 6`. -/
theorem C6_spectrum_start_centering :
    (∀ (cfg : ReaderCfg) (specVal : ℤ → ℤ → ℚ) (fst : FinderState) (mem : ℕ → ℕ)
        (valMin valMax : ℤ) (view : mipmapReaderView) (yLower yUpper : ℚ) (i : ℕ),
        firstMatch cfg ((view.endSamples - view.startSamples) / view.resolution) 0
            cfg.LEVELS = some i →
        view.startSamples / ((view.endSamples - view.startSamples) / view.resolution)
            / cfg.chunkSize < cfg.length / levelCompression cfg i / cfg.chunkSize →
        readSpectrum cfg specVal fst mem valMin valMax view yLower yUpper
          = Except.ok (chunksGo (advanceChunk cfg.LEVELS cfg.levelSteps)
              (fun s => innerLoop
                (spectrumChunkBody mem specVal yLower yUpper
                  (((valMax : ℚ) - (valMin : ℚ)) / (yUpper - yLower)) ((valMin : ℚ))
                  (s.currIndex * cfg.CHANNELS * cfg.chunkSize))
                cfg.chunkSize)
              (goToChunk cfg.LEVELS cfg.levelSteps fst i
                ((view.startSamples
                    / ((view.endSamples - view.startSamples) / view.resolution)
                    / cfg.chunkSize
                  + cfg.length / levelCompression cfg i / cfg.chunkSize / 2)
                  % (cfg.length / levelCompression cfg i / cfg.chunkSize)))
              (loopCount cfg.chunkSize view.resolution)))
    ∧ spectrumChunkIndex 8 2 = 6 ∧ (8 : ℕ) / 2 = 4 ∧ (2 + 4) % 8 = 6 := by
  refine ⟨?_, by decide, by decide, by decide⟩
  intro cfg specVal fst mem valMin valMax view yLower yUpper i hm hlt
  rw [readSpectrum_ok_eq cfg specVal fst mem valMin valMax view yLower yUpper i hm,
    spectrumChunkIndex_mod hlt]

/-- Witness for C6: two channels, 8 chunks at the matched level, start
chunk 2, reading begins at the physical chunk of logical index 6. -/
theorem C6_spectrum_start_centering_witness :
    (firstMatch cfgC6 ((viewC6.endSamples - viewC6.startSamples) / viewC6.resolution)
        0 cfgC6.LEVELS = some 0
      ∧ viewC6.startSamples
          / ((viewC6.endSamples - viewC6.startSamples) / viewC6.resolution)
          / cfgC6.chunkSize
        < cfgC6.length / levelCompression cfgC6 0 / cfgC6.chunkSize)
    ∧ readSpectrum cfgC6 specZero st00 memZero 0 1 viewC6 0 1
        = Except.ok (chunksGo (advanceChunk cfgC6.LEVELS cfgC6.levelSteps)
            (fun s => innerLoop
              (spectrumChunkBody memZero specZero 0 1
                ((((1 : ℤ) : ℚ) - ((0 : ℤ) : ℚ)) / ((1 : ℚ) - (0 : ℚ)))
                (((0 : ℤ) : ℚ))
                (s.currIndex * cfgC6.CHANNELS * cfgC6.chunkSize))
              cfgC6.chunkSize)
            (goToChunk cfgC6.LEVELS cfgC6.levelSteps st00 0 6)
            (loopCount cfgC6.chunkSize viewC6.resolution)) :=
  ⟨⟨by decide, by decide⟩,
    C6_spectrum_start_centering.1 cfgC6 specZero st00 memZero 0 1 viewC6 0 1 0
      (by decide) (by decide)⟩

/-- C7: `read` and `readSpectrum` throw the logic error
"no mipmap level for this resolution" if and only if the view's compression
factor `(endSamples - startSamples) / resolution` equals no
`levelCompression[i]`; when a matching level exists, extraction proceeds
normally with that level (the first match).  (`0 < resolution` confines the
statement to the domain on which the C++ integer division is defined.) -/
theorem C7_no_level_logic_error :
    ∀ (cfg : ReaderCfg) (specVal : ℤ → ℤ → ℚ) (fst : FinderState) (mem : ℕ → ℕ)
      (valMin valMax : ℤ) (view : mipmapReaderView) (yLower yUpper : ℚ),
      0 < view.resolution →
      ((read cfg fst mem valMin valMax view yLower yUpper
          = Except.error "no mipmap level for this resolution"
        ↔ ∀ i, i < cfg.LEVELS →
            levelCompression cfg i
              ≠ (view.endSamples - view.startSamples) / view.resolution)
      ∧ (readSpectrum cfg specVal fst mem valMin valMax view yLower yUpper
          = Except.error "no mipmap level for this resolution"
        ↔ ∀ i, i < cfg.LEVELS →
            levelCompression cfg i
              ≠ (view.endSamples - view.startSamples) / view.resolution)
      ∧ ∀ i, firstMatch cfg ((view.endSamples - view.startSamples) / view.resolution)
            0 cfg.LEVELS = some i →
          levelCompression cfg i
              = (view.endSamples - view.startSamples) / view.resolution
            ∧ isOkE (read cfg fst mem valMin valMax view yLower yUpper) = true
            ∧ isOkE (readSpectrum cfg specVal fst mem valMin valMax view yLower
                yUpper) = true) := by
  intro cfg specVal fst mem valMin valMax view yLower yUpper _
  refine ⟨?_, ?_, ?_⟩
  · rw [read_error_iff cfg fst mem valMin valMax view yLower yUpper,
      firstMatch_none_iff cfg ((view.endSamples - view.startSamples) / view.resolution)
        cfg.LEVELS 0]
    constructor
    · intro h i hi
      exact h i (by omega) (by omega)
    · intro h j _ hj
      exact h j (by omega)
  · rw [readSpectrum_error_iff cfg specVal fst mem valMin valMax view yLower yUpper,
      firstMatch_none_iff cfg ((view.endSamples - view.startSamples) / view.resolution)
        cfg.LEVELS 0]
    constructor
    · intro h i hi
      exact h i (by omega) (by omega)
    · intro h j _ hj
      exact h j (by omega)
  · intro i hm
    refine ⟨(firstMatch_some_spec cfg
        ((view.endSamples - view.startSamples) / view.resolution) cfg.LEVELS 0 i hm).1,
      ?_, ?_⟩
    · simp [read, hm, isOkE]
    · simp [readSpectrum, hm, isOkE]

/-- Witness for C7 on a one-level configuration whose level 0 matches the
view's compression factor 4. -/
theorem C7_no_level_logic_error_witness :
    0 < viewC7.resolution
    ∧ ((read cfgC7 st00 memZero 0 1 viewC7 0 1
          = Except.error "no mipmap level for this resolution"
        ↔ ∀ i, i < cfgC7.LEVELS →
            levelCompression cfgC7 i
              ≠ (viewC7.endSamples - viewC7.startSamples) / viewC7.resolution)
      ∧ (readSpectrum cfgC7 specZero st00 memZero 0 1 viewC7 0 1
          = Except.error "no mipmap level for this resolution"
        ↔ ∀ i, i < cfgC7.LEVELS →
            levelCompression cfgC7 i
              ≠ (viewC7.endSamples - viewC7.startSamples) / viewC7.resolution)
      ∧ ∀ i, firstMatch cfgC7
            ((viewC7.endSamples - viewC7.startSamples) / viewC7.resolution) 0
            cfgC7.LEVELS = some i →
          levelCompression cfgC7 i
              = (viewC7.endSamples - viewC7.startSamples) / viewC7.resolution
            ∧ isOkE (read cfgC7 st00 memZero 0 1 viewC7 0 1) = true
            ∧ isOkE (readSpectrum cfgC7 specZero st00 memZero 0 1 viewC7 0 1)
                = true) :=
  ⟨by decide,
    C7_no_level_logic_error cfgC7 specZero st00 memZero 0 1 viewC7 0 1 (by decide)⟩

/-! Indexing into the lists produced by the chunk loops. -/

lemma innerLoop_length (body : ℕ → List ℤ) (hlen : ∀ x, (body x).length = 2) :
    ∀ m, (innerLoop body m).length = 2 * m := by
  intro m
  induction m with
  | zero => rfl
  | succ m ih =>
      show (innerLoop body m ++ body m).length = 2 * (m + 1)
      rw [List.length_append, ih, hlen m]
      omega

lemma innerLoop_get (body : ℕ → List ℤ) (hlen : ∀ x, (body x).length = 2) :
    ∀ (m x r : ℕ), x < m → r < 2 →
      (innerLoop body m).get? (2 * x + r) = (body x).get? r := by
  intro m
  induction m with
  | zero =>
      intro x r hx _
      omega
  | succ m ih =>
      intro x r hx hr
      show (innerLoop body m ++ body m).get? (2 * x + r) = (body x).get? r
      rcases Nat.lt_or_ge x m with h | h
      · rw [List.get?_append (by rw [innerLoop_length body hlen m]; omega)]
        exact ih x r h hr
      · have hxm : x = m := by omega
        subst hxm
        rw [List.get?_append_right (by rw [innerLoop_length body hlen x]; omega)]
        rw [innerLoop_length body hlen x]
        congr 1
        omega

lemma chunksGo_get (adv : FinderState → FinderState) (body : FinderState → List ℤ)
    (CS : ℕ) (hlen : ∀ st, (body st).length = 2 * CS) :
    ∀ (n : ℕ) (st : FinderState) (c j : ℕ), c < n → j < 2 * CS →
      (chunksGo adv body st n).get? (2 * CS * c + j) = (body (adv^[c] st)).get? j := by
  intro n
  induction n with
  | zero =>
      intro st c j hc _
      omega
  | succ n ih =>
      intro st c j hc hj
      show (body st ++ chunksGo adv body (adv st) n).get? (2 * CS * c + j) = _
      cases c with
      | zero =>
          rw [Function.iterate_zero_apply,
            show 2 * CS * 0 + j = j by omega,
            List.get?_append (by rw [hlen st]; omega)]
      | succ c =>
          have hmul : 2 * CS * (c + 1) = 2 * CS * c + 2 * CS := by ring
          rw [List.get?_append_right (by rw [hlen st]; omega), hlen st,
            show 2 * CS * (c + 1) + j - 2 * CS = 2 * CS * c + j by omega,
            ih (adv st) c j (by omega) hj, Function.iterate_succ_apply]

lemma spectrumChunkBody_length (mem : ℕ → ℕ) (specVal : ℤ → ℤ → ℚ)
    (yLower yUpper A B : ℚ) (offs x : ℕ) :
    (spectrumChunkBody mem specVal yLower yUpper A B offs x).length = 2 := rfl

lemma spectrumChunkBody_spec (mem : ℕ → ℕ) (specVal : ℤ → ℤ → ℚ)
    (yLower yUpper A B : ℚ) (offs x : ℕ) :
    spectrumChunkBody mem specVal yLower yUpper A B offs x
      = [spectrumSampleSpec mem specVal yLower yUpper A B offs x,
         spectrumSampleSpec mem specVal yLower yUpper A B offs x] := by
  have hmax : ∀ a b : ℤ, (if b < a then a else b) = max a b := by
    intro a b
    rw [max_def]
    split_ifs <;> omega
  simp only [spectrumChunkBody, spectrumSampleSpec]
  rw [hmax, hmax]

/-- C8: every sample emitted by `readSpectrum` is obtained by unpacking the
(lower, upper) 32-bit bounds of the real and imaginary channels, forming the
conservative estimates `max(-lowerRe, upperRe)` and `max(-lowerIm, upperIm)`,
applying the external `spectrumValue` function to those two estimates,
clamping the result to `[yLower, yUpper]` and rescaling it affinely to the
output integer range (see `spectrumSampleSpec`); the identical value is
written to both the lower and the upper destination slot of the sample. -/
theorem C8_spectrum_sample_values :
    ∀ (cfg : ReaderCfg) (specVal : ℤ → ℤ → ℚ) (fst : FinderState) (mem : ℕ → ℕ)
      (valMin valMax : ℤ) (view : mipmapReaderView) (yLower yUpper : ℚ)
      (i : ℕ) (out : List ℤ) (c x : ℕ),
      readSpectrum cfg specVal fst mem valMin valMax view yLower yUpper
          = Except.ok out →
      firstMatch cfg ((view.endSamples - view.startSamples) / view.resolution) 0
          cfg.LEVELS = some i →
      c < loopCount cfg.chunkSize view.resolution →
      x < cfg.chunkSize →
      out.get? (2 * (cfg.chunkSize * c + x))
          = some (spectrumSampleSpec mem specVal yLower yUpper
              (((valMax : ℚ) - (valMin : ℚ)) / (yUpper - yLower)) ((valMin : ℚ))
              (((advanceChunk cfg.LEVELS cfg.levelSteps)^[c]
                  (goToChunk cfg.LEVELS cfg.levelSteps fst i
                    (spectrumChunkIndex
                      (cfg.length / levelCompression cfg i / cfg.chunkSize)
                      (view.startSamples
                        / ((view.endSamples - view.startSamples) / view.resolution)
                        / cfg.chunkSize)))).currIndex
                * cfg.CHANNELS * cfg.chunkSize)
              x)
        ∧ out.get? (2 * (cfg.chunkSize * c + x) + 1)
          = some (spectrumSampleSpec mem specVal yLower yUpper
              (((valMax : ℚ) - (valMin : ℚ)) / (yUpper - yLower)) ((valMin : ℚ))
              (((advanceChunk cfg.LEVELS cfg.levelSteps)^[c]
                  (goToChunk cfg.LEVELS cfg.levelSteps fst i
                    (spectrumChunkIndex
                      (cfg.length / levelCompression cfg i / cfg.chunkSize)
                      (view.startSamples
                        / ((view.endSamples - view.startSamples) / view.resolution)
                        / cfg.chunkSize)))).currIndex
                * cfg.CHANNELS * cfg.chunkSize)
              x) := by
  intro cfg specVal fst mem valMin valMax view yLower yUpper i out c x h hm hc hx
  rw [readSpectrum_ok_eq cfg specVal fst mem valMin valMax view yLower yUpper i hm]
    at h
  injection h with h
  subst h
  have hilen : ∀ st : FinderState, ((fun s => innerLoop
      (spectrumChunkBody mem specVal yLower yUpper
        (((valMax : ℚ) - (valMin : ℚ)) / (yUpper - yLower)) ((valMin : ℚ))
        (s.currIndex * cfg.CHANNELS * cfg.chunkSize))
      cfg.chunkSize) st).length = 2 * cfg.chunkSize :=
    fun st => innerLoop_length
      (spectrumChunkBody mem specVal yLower yUpper
        (((valMax : ℚ) - (valMin : ℚ)) / (yUpper - yLower)) ((valMin : ℚ))
        (st.currIndex * cfg.CHANNELS * cfg.chunkSize))
      (fun x' => spectrumChunkBody_length mem specVal yLower yUpper _ _ _ x')
      cfg.chunkSize
  constructor
  · rw [show 2 * (cfg.chunkSize * c + x) = 2 * cfg.chunkSize * c + (2 * x + 0)
        by ring,
      chunksGo_get (advanceChunk cfg.LEVELS cfg.levelSteps) _ cfg.chunkSize hilen
        (loopCount cfg.chunkSize view.resolution) _ c (2 * x + 0) hc (by omega)]
    rw [innerLoop_get
        (spectrumChunkBody mem specVal yLower yUpper
          (((valMax : ℚ) - (valMin : ℚ)) / (yUpper - yLower)) ((valMin : ℚ))
          (((advanceChunk cfg.LEVELS cfg.levelSteps)^[c]
              (goToChunk cfg.LEVELS cfg.levelSteps fst i
                (spectrumChunkIndex
                  (cfg.length / levelCompression cfg i / cfg.chunkSize)
                  (view.startSamples
                    / ((view.endSamples - view.startSamples) / view.resolution)
                    / cfg.chunkSize)))).currIndex
            * cfg.CHANNELS * cfg.chunkSize))
        (fun x' => spectrumChunkBody_length mem specVal yLower yUpper _ _ _ x')
        cfg.chunkSize x 0 hx (by omega),
      spectrumChunkBody_spec]
    rfl
  · rw [show 2 * (cfg.chunkSize * c + x) + 1 = 2 * cfg.chunkSize * c + (2 * x + 1)
        by ring,
      chunksGo_get (advanceChunk cfg.LEVELS cfg.levelSteps) _ cfg.chunkSize hilen
        (loopCount cfg.chunkSize view.resolution) _ c (2 * x + 1) hc (by omega)]
    rw [innerLoop_get
        (spectrumChunkBody mem specVal yLower yUpper
          (((valMax : ℚ) - (valMin : ℚ)) / (yUpper - yLower)) ((valMin : ℚ))
          (((advanceChunk cfg.LEVELS cfg.levelSteps)^[c]
              (goToChunk cfg.LEVELS cfg.levelSteps fst i
                (spectrumChunkIndex
                  (cfg.length / levelCompression cfg i / cfg.chunkSize)
                  (view.startSamples
                    / ((view.endSamples - view.startSamples) / view.resolution)
                    / cfg.chunkSize)))).currIndex
            * cfg.CHANNELS * cfg.chunkSize))
        (fun x' => spectrumChunkBody_length mem specVal yLower yUpper _ _ _ x')
        cfg.chunkSize x 1 hx (by omega),
      spectrumChunkBody_spec]
    rfl

/-- Witness for C8 on a minimal two-channel configuration: the single output
sample carries the same value in both slots. -/
theorem C8_spectrum_sample_values_witness :
    (readSpectrum cfgC8 specZero st00 memZero 0 1 viewC8 0 1 = Except.ok outC8
      ∧ firstMatch cfgC8 ((viewC8.endSamples - viewC8.startSamples)
          / viewC8.resolution) 0 cfgC8.LEVELS = some 0
      ∧ 0 < loopCount cfgC8.chunkSize viewC8.resolution ∧ 0 < cfgC8.chunkSize)
    ∧ (outC8.get? (2 * (cfgC8.chunkSize * 0 + 0))
          = some (spectrumSampleSpec memZero specZero 0 1
              ((((1 : ℤ) : ℚ) - ((0 : ℤ) : ℚ)) / ((1 : ℚ) - (0 : ℚ))) (((0 : ℤ) : ℚ))
              (((advanceChunk cfgC8.LEVELS cfgC8.levelSteps)^[0]
                  (goToChunk cfgC8.LEVELS cfgC8.levelSteps st00 0
                    (spectrumChunkIndex
                      (cfgC8.length / levelCompression cfgC8 0 / cfgC8.chunkSize)
                      (viewC8.startSamples
                        / ((viewC8.endSamples - viewC8.startSamples)
                            / viewC8.resolution)
                        / cfgC8.chunkSize)))).currIndex
                * cfgC8.CHANNELS * cfgC8.chunkSize)
              0)
        ∧ outC8.get? (2 * (cfgC8.chunkSize * 0 + 0) + 1)
          = some (spectrumSampleSpec memZero specZero 0 1
              ((((1 : ℤ) : ℚ) - ((0 : ℤ) : ℚ)) / ((1 : ℚ) - (0 : ℚ))) (((0 : ℤ) : ℚ))
              (((advanceChunk cfgC8.LEVELS cfgC8.levelSteps)^[0]
                  (goToChunk cfgC8.LEVELS cfgC8.levelSteps st00 0
                    (spectrumChunkIndex
                      (cfgC8.length / levelCompression cfgC8 0 / cfgC8.chunkSize)
                      (viewC8.startSamples
                        / ((viewC8.endSamples - viewC8.startSamples)
                            / viewC8.resolution)
                        / cfgC8.chunkSize)))).currIndex
                * cfgC8.CHANNELS * cfgC8.chunkSize)
              0)) :=
  ⟨⟨readSpectrum_ok_eq cfgC8 specZero st00 memZero 0 1 viewC8 0 1 0 (by decide),
      by decide, by decide, by decide⟩, by
    exact C8_spectrum_sample_values cfgC8 specZero st00 memZero 0 1 viewC8 0 1 0
      outC8 0 0
      (readSpectrum_ok_eq cfgC8 specZero st00 memZero 0 1 viewC8 0 1 0 (by decide))
      (by decide) (by decide) (by decide)⟩

end Sdr5
